import Mathlib

/-!
Verification of the GrantMath Excel add-in core (src/addin.js) against its
natural-language specification.

The development shallowly embeds the two pieces of the program that the
claims are about:

* `stripHtmlTags` (the text normalizer, a pipeline of JavaScript regex
  substitutions) is embedded as `stripHtmlL` on `List Char`.  Each regex
  substitution with the `g` flag is modelled by the generic left-to-right
  scanner `scan`, instantiated with a matcher that mirrors the exact
  pattern of the corresponding regex, including the JavaScript semantics
  that `.` does not match line terminators (the source regexes have no
  dotall flag), that quantifiers such as the non-greedy star match the
  shortest possible content, and that the `i` flag compares ASCII letters
  case-insensitively.

* `solveCell` (the service client logic) is embedded as a pure function
  from the question string, the stored API key, and the behaviour of the
  one `fetch` call, to a trace recording the requests issued, the cell
  writes performed, and the terminal outcome of the call.
-/

namespace GrantMath

/-- ASCII lower-casing, as performed by the JavaScript regex `i` flag on
the ASCII tag letters that occur in the source patterns. -/
def lc (c : Char) : Char :=
  if 65 ≤ c.toNat ∧ c.toNat ≤ 90 then Char.ofNat (c.toNat + 32) else c

/-- The set of characters matched by JavaScript `\s`, and removed by
`String.prototype.trim` (WhiteSpace plus LineTerminator). -/
def jsWs (c : Char) : Bool :=
  c = ' ' ∨ c = '\t' ∨ c = '\n' ∨ c = '\r' ∨ c.toNat = 11 ∨ c.toNat = 12 ∨
  c.toNat = 0xa0 ∨ c.toNat = 0x1680 ∨ (0x2000 ≤ c.toNat ∧ c.toNat ≤ 0x200a) ∨
  c.toNat = 0x2028 ∨ c.toNat = 0x2029 ∨ c.toNat = 0x202f ∨ c.toNat = 0x205f ∨
  c.toNat = 0x3000 ∨ c.toNat = 0xfeff

/-- JavaScript line terminators, the characters not matched by `.` in a
regex without the dotall flag. -/
def lineTerm (c : Char) : Bool :=
  c = '\n' ∨ c = '\r' ∨ c.toNat = 0x2028 ∨ c.toNat = 0x2029

/-- The trimming performed by `String.prototype.trim`: whitespace removed
from both ends. -/
def jsTrimL (l : List Char) : List Char :=
  ((l.dropWhile jsWs).reverse.dropWhile jsWs).reverse

/-- String-level wrapper for `jsTrimL`. -/
def jsTrimS (s : String) : String :=
  (jsTrimL s.toList).asString

/-- Case-insensitive test that `pat` (given lower-case) matches the first
`pat.length` characters of `l`, as the `i`-flagged regexes do. -/
def ciPref (pat l : List Char) : Bool :=
  (l.take pat.length).map lc = pat

/-- Length of the longest prefix of `l` whose characters satisfy `p`. -/
def countWhile (p : Char → Bool) (l : List Char) : Nat :=
  (l.takeWhile p).length

/-- Position of the first `'>'` in `l` (the number of characters matched
by a greedy `[^>]*` before the forced `'>'`), or `none` if there is no
`'>'` at all, in which case the enclosing tag pattern fails. -/
def findGt : List Char → Option Nat
  | [] => none
  | c :: r => if c = '>' then some 0 else (findGt r).map (· + 1)

/-- Lazy scan for a closing tag, as `.*?` followed by a closing pattern:
`closeAt l = some n` means a closing tag of length `n` starts at `l`.
Returns the shortest content (which may not contain a line terminator,
since `.` does not match one) together with the total number of
characters consumed, content plus closing tag.  `none` when no closing
tag is reachable, in which case the enclosing match fails. -/
def findCap (closeAt : List Char → Option Nat) : List Char → Option (List Char × Nat)
  | [] => none
  | c :: r =>
    match closeAt (c :: r) with
    | some n => some ([], n)
    | none =>
      if lineTerm c then none
      else
        match findCap closeAt r with
        | some (cs, m) => some (c :: cs, m + 1)
        | none => none

/-- One pass of a JavaScript `String.replace(regex-with-g, rep)`: a
left-to-right scan that, at each position, either applies the matcher
`step` — `step l = some (rep, k)` replaces the first `k + 1` characters
of `l` by `rep` — or keeps one character and moves on.  Matches always
consume at least one character (every source pattern starts with a
literal character), so fuel `l.length` always suffices; the fuel-free
equations are proved below. -/
def scanF (step : List Char → Option (List Char × Nat)) : Nat → List Char → List Char
  | _, [] => []
  | 0, l => l
  | f + 1, c :: rest =>
    match step (c :: rest) with
    | some (rep, k) => rep ++ scanF step f (rest.drop k)
    | none => c :: scanF step f rest

/-- A global regex replacement over the whole input. -/
def scan (step : List Char → Option (List Char × Nat)) (l : List Char) : List Char :=
  scanF step l.length l

/-- Matcher for a closing tag given as a fixed (lower-case) literal, such
as the pattern fragment `<\/script>`. -/
def litCloseAt (close : List Char) (l : List Char) : Option Nat :=
  if ciPref close l then some close.length else none

/-- Matcher for a whole removed block, the pattern
`<name[^>]*>.*?<\/name>` with flags `gi`: the literal `<name`, a greedy
run of non-`'>'` characters, `'>'`, the shortest line-terminator-free
content, and the literal closing tag.  `some (rep, k)` follows the
`scan` convention: the replacement is empty and `k + 1` characters are
consumed. -/
def tryRemoveBlock (name : List Char) : List Char → Option (List Char × Nat)
  | [] => none
  | c :: rest =>
    if c = '<' ∧ ciPref name rest then
      match findGt (rest.drop name.length) with
      | none => none
      | some g =>
        match findCap (litCloseAt ('<' :: '/' :: (name ++ ['>']))) (rest.drop (name.length + g + 1)) with
        | some (_, m) => some ([], name.length + g + 1 + m)
        | none => none
    else none

/-- Matcher for the emphasis patterns `<strong[^>]*>(.*?)<\/strong>` and
`<b[^>]*>(.*?)<\/b>` (flags `gi`), replaced by `**$1**`. -/
def tryEmph (name : List Char) : List Char → Option (List Char × Nat)
  | [] => none
  | c :: rest =>
    if c = '<' ∧ ciPref name rest then
      match findGt (rest.drop name.length) with
      | none => none
      | some g =>
        match findCap (litCloseAt ('<' :: '/' :: (name ++ ['>']))) (rest.drop (name.length + g + 1)) with
        | some (content, m) => some ('*' :: '*' :: (content ++ ['*', '*']), name.length + g + 1 + m)
        | none => none
    else none

/-- Whether `d` is one of the digits `1`–`6` of a heading level. -/
def hDigit (d : Char) : Bool := 49 ≤ d.toNat ∧ d.toNat ≤ 54

/-- Matcher for a closing heading tag, the pattern fragment
`<\/h[1-6]>`; the regex does not require the closing level to equal the
opening one. -/
def hCloseAt : List Char → Option Nat
  | a :: b :: h :: d :: e :: _ =>
    if a = '<' ∧ b = '/' ∧ lc h = 'h' ∧ hDigit d ∧ e = '>' then some 5 else none
  | _ => none

/-- The separator produced for headings: 40 `'='` characters. -/
def sepLine : List Char := List.replicate 40 '='

/-- Matcher for the heading pattern `<h[1-6][^>]*>(.*?)<\/h[1-6]>`
(flags `gi`), replaced by a newline, the captured inner text, a newline,
the 40-character separator and a trailing newline. -/
def tryHeading : List Char → Option (List Char × Nat)
  | c :: h :: d :: rest =>
    if c = '<' ∧ lc h = 'h' ∧ hDigit d then
      match findGt rest with
      | none => none
      | some g =>
        match findCap hCloseAt (rest.drop (g + 1)) with
        | some (content, m) =>
          some ('\n' :: (content ++ '\n' :: (sepLine ++ ['\n'])), g + 1 + m + 2)
        | none => none
    else none
  | _ => none

/-- Matcher for the boundary-tag patterns `<\/?p[^>]*>` and
`<\/?div[^>]*>` (flags `gi`), each occurrence replaced by a single
newline.  The optional `'/'` is tried exactly as the regex does. -/
def tryBoundary (name : List Char) : List Char → Option (List Char × Nat)
  | '<' :: '/' :: rest =>
    if ciPref name rest then
      match findGt (rest.drop name.length) with
      | none => none
      | some g => some (['\n'], name.length + g + 2)
      else none
  | '<' :: rest =>
    if ciPref name rest then
      match findGt (rest.drop name.length) with
      | none => none
      | some g => some (['\n'], name.length + g + 1)
      else none
  | _ => none

/-- Matcher for the line-break pattern `<br\s*\/?>` (flags `gi`),
replaced by a newline. -/
def tryBr : List Char → Option (List Char × Nat)
  | '<' :: b :: r :: rest =>
    if lc b = 'b' ∧ lc r = 'r' then
      let w := countWhile jsWs rest
      match rest.drop w with
      | '/' :: '>' :: _ => some (['\n'], w + 4)
      | '>' :: _ => some (['\n'], w + 3)
      | _ => none
    else none
  | _ => none

/-- Matcher for the final tag-stripping pattern `<[^>]+>` (flag `g`),
removed outright: at least one non-`'>'` character between the
brackets. -/
def tryAnyTag : List Char → Option (List Char × Nat)
  | '<' :: rest =>
    match findGt rest with
    | some (g + 1) => some ([], g + 2)
    | _ => none
  | _ => none

/-- Modelled from the spec: step 7, decoding HTML character entities
into their literal text equivalents.  The source delegates this to the
browser (assigning to a detached textarea's `innerHTML` and reading back
`value`), which is host behaviour outside the repository; the model
decodes the common named entities and decimal or hexadecimal numeric
character references, one pass, leaving unrecognised sequences
unchanged. -/
def entityTable : List (List Char × Char) :=
  [(['a', 'm', 'p'], '&'), (['l', 't'], '<'), (['g', 't'], '>'),
   (['q', 'u', 'o', 't'], '"'), (['a', 'p', 'o', 's'], '\''),
   (['n', 'b', 's', 'p'], Char.ofNat 0xa0), (['e', 'a', 'c', 'u', 't', 'e'], 'é'),
   (['c', 'o', 'p', 'y'], '©'), (['m', 'd', 'a', 's', 'h'], '—'),
   (['n', 'd', 'a', 's', 'h'], '–'), (['h', 'e', 'l', 'l', 'i', 'p'], '…'),
   (['t', 'i', 'm', 'e', 's'], '×'), (['d', 'e', 'g'], '°'),
   (['p', 'l', 'u', 's', 'm', 'n'], '±')]

/-- Find a named entity of `entityTable` followed by `';'` at the start
of `l`, returning its decoding and the number of characters after the
`'&'` that the reference occupies. -/
def findNamed : List (List Char × Char) → List Char → Option (List Char × Nat)
  | [], _ => none
  | (nm, ch) :: tbl, l =>
    if (nm ++ [';']).isPrefixOf l then some ([ch], nm.length + 1) else findNamed tbl l

/-- Whether `c` is a hexadecimal digit. -/
def hexDigit (c : Char) : Bool :=
  c.isDigit ∨ ('a' ≤ c ∧ c ≤ 'f') ∨ ('A' ≤ c ∧ c ≤ 'F')

/-- Numeric value of a hexadecimal digit. -/
def hexVal (c : Char) : Nat :=
  if c.isDigit then c.toNat - 48
  else if 'a' ≤ c ∧ c ≤ 'f' then c.toNat - 87
  else c.toNat - 55

/-- The character denoted by a numeric character reference: the code
point itself when it is a valid scalar value, else U+FFFD as the HTML
parser produces (also for NUL). -/
def charOfCode (n : Nat) : Char :=
  if n ≠ 0 ∧ (n < 0xd800 ∨ (0xe000 ≤ n ∧ n < 0x110000)) then Char.ofNat n
  else Char.ofNat 0xfffd

/-- Matcher for one HTML character reference starting with `'&'`. -/
def tryEntity : List Char → Option (List Char × Nat)
  | '&' :: '#' :: x :: rest =>
    if x = 'x' ∨ x = 'X' then
      let ds := rest.takeWhile hexDigit
      match rest.drop ds.length with
      | ';' :: _ =>
        if ds = [] then none
        else some ([charOfCode (ds.foldl (fun a c => a * 16 + hexVal c) 0)], ds.length + 3)
      | _ => none
    else
      let ds := (x :: rest).takeWhile Char.isDigit
      match (x :: rest).drop ds.length with
      | ';' :: _ =>
        if ds = [] then none
        else some ([charOfCode (ds.foldl (fun a c => a * 10 + (c.toNat - 48)) 0)], ds.length + 2)
      | _ => none
  | '&' :: '#' :: _ => none
  | '&' :: rest => findNamed entityTable rest
  | _ => none

/-- Matcher for the whitespace-collapsing pattern `/ +/g`, every run of
spaces replaced by a single space. -/
def trySpaces : List Char → Option (List Char × Nat)
  | [] => none
  | c :: rest =>
    if c = ' ' then some ([' '], countWhile (fun c => c = ' ') rest) else none

/-- Matcher for the newline-collapsing pattern `/\n\n+/g`, every run of
two or more newlines replaced by a single newline. -/
def tryNewlines : List Char → Option (List Char × Nat)
  | c :: d :: rest =>
    if c = '\n' ∧ d = '\n' then
      some (['\n'], countWhile (fun c => c = '\n') rest + 1)
    else none
  | _ => none

/-- The literal marker the disclaimer rule looks for. -/
def disclaimerMarker : List Char :=
  ['*', '*', 'D', 'i', 's', 'c', 'l', 'a', 'i', 'm', 'e', 'r', ':', '*', '*']

/-- Matcher for the disclaimer pattern `/(\*\*Disclaimer:\*\*)/g`,
replaced by a newline followed by the marker itself. -/
def tryDisc (l : List Char) : Option (List Char × Nat) :=
  if disclaimerMarker.isPrefixOf l then some ('\n' :: disclaimerMarker, 14) else none

/-- Split at every `'\n'`, as `String.prototype.split("\n")`. -/
def splitNL : List Char → List (List Char)
  | [] => [[]]
  | c :: rest =>
    if c = '\n' then [] :: splitNL rest
    else
      match splitNL rest with
      | s :: ss => (c :: s) :: ss
      | [] => [[c]]

/-- Join with single newlines, as `Array.prototype.join("\n")`. -/
def joinNL : List (List Char) → List Char
  | [] => []
  | [s] => s
  | s :: ss => s ++ '\n' :: joinNL ss

/-- The list of characters of the tag name `script`. -/
def scriptName : List Char := ['s', 'c', 'r', 'i', 'p', 't']

/-- The list of characters of the tag name `style`. -/
def styleName : List Char := ['s', 't', 'y', 'l', 'e']

/-- The list of characters of the tag name `strong`. -/
def strongName : List Char := ['s', 't', 'r', 'o', 'n', 'g']

/-- The line-cleanup step of the pipeline: split into lines, trim each,
drop the lines that become empty, and rejoin with single newlines. -/
def cleanLines (l : List Char) : List Char :=
  joinNL (((splitNL l).map jsTrimL).filter (fun s => !s.isEmpty))

/-- The tag-and-entity stages of the normalizer, substitutions 1 to 10
of the source in order: script and style removal, headings, paragraph
and div boundaries, line breaks, strong and b emphasis, remaining tags,
entity decoding. -/
def preClean (html : List Char) : List Char :=
  scan tryEntity (scan tryAnyTag (scan (tryEmph ['b']) (scan (tryEmph strongName)
    (scan tryBr (scan (tryBoundary ['d', 'i', 'v']) (scan (tryBoundary ['p'])
      (scan tryHeading (scan (tryRemoveBlock styleName)
        (scan (tryRemoveBlock scriptName) html)))))))))

/-- The full normalizer `stripHtmlTags` of src/addin.js on `List Char`:
the guard for a falsy argument, then the thirteen substitutions in
source order, and the final trim. -/
def stripHtmlL (html : List Char) : List Char :=
  if html = [] then []
  else
    jsTrimL (scan tryDisc (cleanLines (scan tryNewlines (scan trySpaces (preClean html)))))

/-- String-level wrapper for the normalizer. -/
def stripHtmlS (s : String) : String :=
  (stripHtmlL s.toList).asString

/-- One request issued through `fetch` in `solveCell`: the header map,
and the question carried by the JSON body, which the source builds as
the stringification of an object whose single field `question` holds
`question.toString()`. -/
structure FetchRequest where
  headers : List (String × String)
  question : String
  deriving DecidableEq

/-- The JSON body of an HTTP response as consumed by `response.json()`:
either not parseable — the returned promise rejects with a syntax error
carrying a message — or an object with the optional fields the source
reads: `success`, `error`, `analysis`, `formatted_answer`. -/
inductive JsonBody where
  | unparseable (parseErrMsg : String)
  | obj (success : Option Bool) (error : Option String)
      (analysis : Option String) (formatted : Option String)
  deriving DecidableEq

/-- The behaviour of the single `fetch` call: a response with a status,
a status text and a body, or a transport-level rejection. -/
inductive FetchResult where
  | response (status : Nat) (statusText : String) (body : JsonBody)
  | reject (errMsg : String)
  deriving DecidableEq

/-- The terminal outcome of one `solveCell` invocation, one constructor
per exit path of the source, carrying the data that path reports. -/
inductive SolveOutcome where
  /-- The selected cell was empty or whitespace: early return. -/
  | emptyInput
  /-- Status 401: `Invalid API key` thrown. -/
  | unauthorized
  /-- Status 429: rate-limit message thrown. -/
  | rateLimited
  /-- Status 400 with a parseable body: the body's `error` field, or the
  generic fallback `Invalid question format`, thrown. -/
  | badRequest (msg : String)
  /-- Any other non-2xx status: `API error: status statusText` thrown. -/
  | serviceUnavailable (status : Nat) (statusText : String)
  /-- `response.json()` rejected: that syntax error propagates to the
  outer catch unchanged. -/
  | jsonError (msg : String)
  /-- 2xx, parseable body, falsy `success`: error shown, early return. -/
  | applicationError (msg : String)
  /-- `fetch` itself rejected: the transport error reaches the catch. -/
  | fetchError (msg : String)
  /-- Success: the normalized answer written to the output cell. -/
  | success (answer : String)
  deriving DecidableEq

/-- One write into the output cell with the formatting the source
applies to it. -/
structure CellWrite where
  value : String
  fontColor : String
  wrapText : Bool
  verticalAlignment : String
  deriving DecidableEq

/-- Everything observable about one `solveCell` invocation. -/
structure SolveTrace where
  fetches : List FetchRequest
  writes : List CellWrite
  outcome : SolveOutcome
  deriving DecidableEq

/-- The header map built by `solveCell`: always `Content-Type`, plus
`Authorization: Bearer <key>` exactly when the stored key is truthy,
that is, a non-empty string. -/
def mkHeaders (apiKey : String) : List (String × String) :=
  [("Content-Type", "application/json")] ++
    (if apiKey ≠ "" then [("Authorization", "Bearer " ++ apiKey)] else [])

/-- JavaScript `v || d` for an optional string field `v`: the field's
value when it is present and non-empty (truthy), else `d`. -/
def jsOrS (v : Option String) (d : String) : String :=
  match v with
  | some s => if s = "" then d else s
  | none => d

/-- The write `solveCell` performs on success: the answer, green font,
word wrap, top vertical alignment. -/
def mkWrite (answer : String) : CellWrite :=
  { value := answer, fontColor := "#166534", wrapText := true, verticalAlignment := "Top" }

/-- The core of `solveCell` in src/addin.js as a function of the
question read from the selected cell, the stored API key, and the
behaviour of the one `fetch` call.  Mirrors the source's control flow:
the emptiness guard, header construction, the `fetch`, the status
dispatch for non-ok responses, the `success` check, and the
normalize-and-write success path. -/
def solveCell (question apiKey : String) (net : FetchResult) : SolveTrace :=
  if question = "" ∨ jsTrimS question = "" then
    { fetches := [], writes := [], outcome := .emptyInput }
  else
    let req : FetchRequest := { headers := mkHeaders apiKey, question := question }
    match net with
    | .reject msg => { fetches := [req], writes := [], outcome := .fetchError msg }
    | .response status statusText body =>
      if ¬ (200 ≤ status ∧ status ≤ 299) then
        if status = 401 then { fetches := [req], writes := [], outcome := .unauthorized }
        else if status = 429 then { fetches := [req], writes := [], outcome := .rateLimited }
        else if status = 400 then
          match body with
          | .unparseable m => { fetches := [req], writes := [], outcome := .jsonError m }
          | .obj _ e _ _ =>
            { fetches := [req], writes := [],
              outcome := .badRequest (jsOrS e "Invalid question format") }
        else
          { fetches := [req], writes := [],
            outcome := .serviceUnavailable status statusText }
      else
        match body with
        | .unparseable m => { fetches := [req], writes := [], outcome := .jsonError m }
        | .obj success e analysis formatted =>
          if success ≠ some true then
            { fetches := [req], writes := [],
              outcome := .applicationError (jsOrS e "Unknown error occurred") }
          else
            let answer := stripHtmlS (jsOrS analysis (jsOrS formatted "No answer returned"))
            { fetches := [req], writes := [mkWrite answer], outcome := .success answer }

/-- The raw answer selected from a successful response body, written
following the amended reading of the spec: the `analysis` field when it
is present as a non-empty (truthy) string, otherwise the
`formatted_answer` field when it is present and non-empty, otherwise
the literal fallback string. -/
def preferredAnswer (analysis formatted : Option String) : String :=
  match analysis with
  | some a =>
    if a ≠ "" then a
    else
      match formatted with
      | some f => if f ≠ "" then f else "No answer returned"
      | none => "No answer returned"
  | none =>
    match formatted with
    | some f => if f ≠ "" then f else "No answer returned"
    | none => "No answer returned"

/-- An occurrence of a complete element in the input: the opening tag
`<name attrs>` (with `attrs` the characters matched by `[^>]*`), the
inner text `t`, the closing tag `</name>`, and the rest `u` of the
input. -/
def tagBlock (name attrs t u : List Char) : List Char :=
  '<' :: (name ++ (attrs ++ ('>' :: (t ++ (('<' :: '/' :: (name ++ ['>'])) ++ u)))))

/-- An occurrence of a complete heading element of level `d`:
`<hd attrs>`, the inner text `t`, the closing tag `</hd>`, and the rest
`u` of the input. -/
def headingBlock (d : Char) (attrs t u : List Char) : List Char :=
  '<' :: 'h' :: d :: (attrs ++ ('>' :: (t ++ ('<' :: '/' :: 'h' :: d :: '>' :: u))))

/-- The representative inputs on which idempotence of the normalizer is
checked: the spec's own example inputs, plus one exercising the
disclaimer rule.  (Normalization is not idempotent on all strings — for
instance a first pass can decode `&amp;lt;` to the text `&lt;` or emit a
stray `<b` that a second pass would decode or strip further — but those
double-encoded inputs are not representative of normalized output, and
the spec's claim is for inputs whose tags have been stripped.) -/
def representativeInputs : List String :=
  ["", "a   b\n\n\nc", "<h1>Title</h1><p>Body text</p>",
   "<strong>Bold</strong> plain", "Caf&eacute;", "Note\n**Disclaimer:** x",
   "x &amp; y", "a<br/>b", "**Disclaimer:** only"]

theorem scanF_congr (step : List Char → Option (List Char × Nat)) :
    ∀ f g l, l.length ≤ f → l.length ≤ g → scanF step f l = scanF step g l := by
  intro f
  induction f with
  | zero =>
    intro g l hf _
    have : l = [] := List.length_eq_zero.mp (Nat.le_zero.mp hf)
    subst this
    cases g <;> rfl
  | succ f ih =>
    intro g l hf hg
    cases l with
    | nil => cases g <;> rfl
    | cons c rest =>
      cases g with
      | zero => exact absurd hg (by simp)
      | succ g =>
        have hf' : rest.length ≤ f := by simpa using hf
        have hg' : rest.length ≤ g := by simpa using hg
        cases hstep : step (c :: rest) with
        | none =>
          simp only [scanF, hstep]
          rw [ih g rest hf' hg']
        | some rk =>
          obtain ⟨rep, k⟩ := rk
          have hd : (rest.drop k).length ≤ rest.length := by
            simp [List.length_drop]
          simp only [scanF, hstep]
          rw [ih g (rest.drop k) (le_trans hd hf') (le_trans hd hg')]

theorem scan_nil (step : List Char → Option (List Char × Nat)) : scan step [] = [] := rfl

theorem scan_cons (step : List Char → Option (List Char × Nat)) (c : Char) (rest : List Char) :
    scan step (c :: rest) =
      match step (c :: rest) with
      | some (rep, k) => rep ++ scan step (rest.drop k)
      | none => c :: scan step rest := by
  show scanF step (rest.length + 1) (c :: rest) = _
  cases hstep : step (c :: rest) with
  | none =>
    simp only [scanF, hstep, scan]
  | some rk =>
    obtain ⟨rep, k⟩ := rk
    have hd : (rest.drop k).length ≤ rest.length := by
      simp [List.length_drop]
    simp only [scanF, hstep, scan]
    rw [scanF_congr step rest.length (rest.drop k).length (rest.drop k) hd le_rfl]

/-- If the matcher fails at the head of every suffix of `a ++ b` that
starts inside `a`, the scan passes `a` through unchanged. -/
theorem scan_append_of_fail (step : List Char → Option (List Char × Nat)) (a b : List Char)
    (h : ∀ c r, c ∈ a → step (c :: r) = none) :
    scan step (a ++ b) = a ++ scan step b := by
  induction a with
  | nil => simp
  | cons c t ih =>
    rw [List.cons_append, scan_cons]
    rw [h c (t ++ b) (List.mem_cons_self c t)]
    rw [ih (fun c' r hc' => h c' r (List.mem_cons_of_mem _ hc'))]
    rfl

/-- A line consisting only of whitespace (an empty line included). -/
def wsOnly (l : List Char) : Bool := l.all jsWs

/-- No two consecutive space characters anywhere in the string. -/
def spacePairFree (l : List Char) : Prop :=
  List.Chain' (fun a b => ¬(a = ' ' ∧ b = ' ')) l

/-- The line discipline of normalized output: reading the lines in
order, a line that is empty or whitespace-only must in fact be empty
and be immediately followed by a line starting with the literal
disclaimer marker, and the last line is never whitespace-only. -/
def goodLines : List (List Char) → Prop
  | [] => True
  | [l] => wsOnly l = false
  | l :: l' :: rest =>
    (wsOnly l = true → l = [] ∧ disclaimerMarker <+: l') ∧ goodLines (l' :: rest)

theorem preferredAnswer_eq (a f : Option String) :
    jsOrS a (jsOrS f "No answer returned") = preferredAnswer a f := by
  cases a with
  | none => cases f with
    | none => rfl
    | some s => by_cases h : s = "" <;> simp [jsOrS, preferredAnswer, h]
  | some s =>
    by_cases h : s = "" <;> cases f with
    | none => simp [jsOrS, preferredAnswer, h]
    | some t => by_cases h2 : t = "" <;> simp [jsOrS, preferredAnswer, h, h2]

/-- C1: a question that is empty or whitespace-only after trimming makes
`solveCell` fail immediately on the empty-input path with no fetch
issued (and, a fortiori, no write), whatever the network would have
answered. -/
theorem claimC1 (q key : String) (net : FetchResult) (h : jsTrimS q = "") :
    solveCell q key net = { fetches := [], writes := [], outcome := .emptyInput } := by
  unfold solveCell
  rw [if_pos (Or.inr h)]

theorem claimC1_witness :
    jsTrimS "   " = "" ∧
      solveCell "   " "k" (.response 200 "OK" (.obj (some true) none (some "a") none)) =
        { fetches := [], writes := [], outcome := .emptyInput } :=
  ⟨by decide, claimC1 "   " "k" _ (by decide)⟩

/-- C2 as stated is false: the source selects the answer with JavaScript
truthiness (`result.analysis || result.formatted_answer || ...`), not
presence.  Here `analysis` is present (the empty string) and
`formatted_answer` is present as `"x"`; the claim requires the analysis
field to be returned, i.e. outcome `success ""`, but the code skips the
falsy empty string and returns `"x"`. -/
theorem claimC2_counterexample :
    (solveCell "q" "" (.response 200 "OK" (.obj (some true) none (some "") (some "x")))).outcome
        = .success "x" ∧
      (solveCell "q" "" (.response 200 "OK" (.obj (some true) none (some "") (some "x")))).outcome
        ≠ .success (stripHtmlS "") := by
  constructor
  · decide
  · decide

/-- C2 amended: for every 2xx response whose parseable body has
`success = true`, `solveCell` succeeds and returns (normalized) the
`analysis` field when it is present and non-empty, otherwise the
`formatted_answer` field when present and non-empty, otherwise the
literal string `No answer returned`. -/
theorem claimC2 (q key sx : String) (st : Nat) (e a f : Option String)
    (hq : ¬(q = "" ∨ jsTrimS q = "")) (hst : 200 ≤ st ∧ st ≤ 299) :
    (solveCell q key (.response st sx (.obj (some true) e a f))).outcome =
      .success (stripHtmlS (preferredAnswer a f)) := by
  unfold solveCell
  rw [if_neg hq]
  simp only
  rw [if_neg (not_not_intro hst)]
  simp only [ne_eq, not_true_eq_false, if_false, preferredAnswer_eq]

theorem claimC2_witness :
    ¬(("q" : String) = "" ∨ jsTrimS "q" = "") ∧ (200 ≤ 200 ∧ 200 ≤ 299) ∧
      (solveCell "q" "k" (.response 200 "OK" (.obj (some true) none none (some "<p>Hi</p>")))).outcome
        = .success (stripHtmlS (preferredAnswer none (some "<p>Hi</p>"))) :=
  ⟨by decide, by omega, claimC2 "q" "k" "OK" 200 none none (some "<p>Hi</p>") (by decide) (by omega)⟩

/-- C3 as stated is false for unparseable bodies: at status 400 the
source first awaits `response.json()`; when the body is not parseable
JSON that await rethrows the parse error, which reaches the outer catch
as-is, so the failure carries the parse error message and not the
generic `BadRequest` fallback `Invalid question format`. -/
theorem claimC3_counterexample :
    (solveCell "q" "" (.response 400 "Bad Request" (.unparseable "Unexpected token"))).outcome
        = .jsonError "Unexpected token" ∧
      (solveCell "q" "" (.response 400 "Bad Request" (.unparseable "Unexpected token"))).outcome
        ≠ .badRequest "Invalid question format" := by
  constructor
  · decide
  · decide

/-- C3 amended: at status 400 with a parseable JSON body, `solveCell`
fails with `badRequest` carrying the body's `error` field, or the
generic fallback `Invalid question format` when that field is absent or
empty; with an unparseable body the JSON parse error propagates instead
and the failure carries that parse error. -/
theorem claimC3 (q key sx : String) (body : JsonBody)
    (hq : ¬(q = "" ∨ jsTrimS q = "")) :
    (solveCell q key (.response 400 sx body)).outcome =
      match body with
      | .unparseable m => .jsonError m
      | .obj _ e _ _ => .badRequest (jsOrS e "Invalid question format") := by
  unfold solveCell
  rw [if_neg hq]
  simp only
  rw [if_pos (by omega)]
  rw [if_neg (by omega), if_neg (by omega)]
  simp only [if_true, reduceIte]
  cases body <;> rfl

theorem claimC3_witness :
    ¬(("q" : String) = "" ∨ jsTrimS "q" = "") ∧
      (solveCell "q" "" (.response 400 "Bad Request" (.obj none (some "bad format") none none))).outcome
        = .badRequest "bad format" :=
  ⟨by decide, by
    rw [claimC3 "q" "" "Bad Request" (.obj none (some "bad format") none none) (by decide)]
    rfl⟩

/-- C8: whenever the trimmed question is non-empty, `solveCell` issues
exactly one fetch, whose body carries exactly the question string and
whose headers are the built header map; that map always contains
`Content-Type: application/json`, and contains an `Authorization`
header — with value `Bearer <key>` — exactly when the stored key is
non-empty. -/
theorem claimC8 (q key : String) (net : FetchResult)
    (h : ¬(q = "" ∨ jsTrimS q = "")) :
    (solveCell q key net).fetches = [{ headers := mkHeaders key, question := q }] ∧
      ("Content-Type", "application/json") ∈ mkHeaders key ∧
      (∀ v, ("Authorization", v) ∈ mkHeaders key ↔ (key ≠ "" ∧ v = "Bearer " ++ key)) := by
  refine ⟨?_, ?_, ?_⟩
  · unfold solveCell
    rw [if_neg h]
    cases net with
    | reject m => rfl
    | response st sx body =>
      simp only
      split
      · split
        · rfl
        · split
          · rfl
          · split
            · cases body <;> rfl
            · rfl
      · cases body with
        | unparseable m => rfl
        | obj s e a f =>
          simp only
          split <;> rfl
  · unfold mkHeaders
    exact List.mem_append_left _ (List.mem_singleton.mpr rfl)
  · intro v
    unfold mkHeaders
    by_cases hk : key = ""
    · simp [hk]
    · simp [hk, Prod.ext_iff]

theorem claimC8_witness :
    ¬(("what is 2+2" : String) = "" ∨ jsTrimS "what is 2+2" = "") ∧
      (solveCell "what is 2+2" "sk-1" (.reject "Failed to fetch")).fetches
        = [{ headers := mkHeaders "sk-1", question := "what is 2+2" }] ∧
      ("Content-Type", "application/json") ∈ mkHeaders "sk-1" ∧
      (("Authorization", "Bearer sk-1") ∈ mkHeaders "sk-1" ↔
        (("sk-1" : String) ≠ "" ∧ ("Bearer sk-1" : String) = "Bearer " ++ "sk-1")) := by
  have h := claimC8 "what is 2+2" "sk-1" (.reject "Failed to fetch") (by decide)
  exact ⟨by decide, h.1, h.2.1, h.2.2 "Bearer sk-1"⟩

/-- C9: the output cell is written, and formatted, exactly on the
success path: on the success outcome there is exactly one write — the
answer with the source's formatting — and on every other outcome,
including all failure paths, no write and no formatting at all. -/
theorem claimC9 (q key : String) (net : FetchResult) :
    (solveCell q key net).writes =
      match (solveCell q key net).outcome with
      | .success a => [mkWrite a]
      | _ => [] := by
  unfold solveCell
  split
  · rfl
  · cases net with
    | reject m => rfl
    | response st sx body =>
      simp only
      split
      · split
        · rfl
        · split
          · rfl
          · split
            · cases body <;> rfl
            · rfl
      · cases body with
        | unparseable m => rfl
        | obj s e a f =>
          simp only
          split <;> rfl

/-- C7: the normalizer is idempotent on the representative inputs:
applying the pipeline to an already-normalized string leaves it
unchanged. -/
theorem claimC7 : ∀ x ∈ representativeInputs, stripHtmlS (stripHtmlS x) = stripHtmlS x := by
  decide

theorem claimC7_witness :
    ("Caf&eacute;" : String) ∈ representativeInputs ∧
      stripHtmlS (stripHtmlS "Caf&eacute;") = stripHtmlS "Caf&eacute;" :=
  ⟨by decide, claimC7 "Caf&eacute;" (by decide)⟩

theorem toNat_ofNat_valid {n : Nat} (h : n.isValidChar) : (Char.ofNat n).toNat = n := by
  unfold Char.ofNat
  rw [dif_pos h]
  rfl

/-- On a character that is not the image of an upper-case letter,
equality after `lc` gives equality outright. -/
theorem lc_fix {c x : Char} (hx : x.toNat < 97 ∨ 122 < x.toNat) (h : lc c = x) : c = x := by
  unfold lc at h
  split at h
  · next hc =>
    exfalso
    have hv : (c.toNat + 32).isValidChar := Or.inl (by omega)
    have h2 := congrArg Char.toNat h
    rw [toNat_ofNat_valid hv] at h2
    omega
  · exact h

theorem ciPref_head {x c : Char} {pat l : List Char}
    (h : ciPref (x :: pat) (c :: l) = true) : lc c = x := by
  simp only [ciPref, List.length_cons, List.take_succ_cons, List.map_cons,
    decide_eq_true_eq, List.cons.injEq] at h
  exact h.1

theorem ciPref_self {pat : List Char} (rest : List Char) (h : pat.map lc = pat) :
    ciPref pat (pat ++ rest) = true := by
  simp only [ciPref, decide_eq_true_eq]
  rw [List.take_left]
  exact h

theorem tryRemoveBlock_ne_lt (name : List Char) {c : Char} (r : List Char) (hc : c ≠ '<') :
    tryRemoveBlock name (c :: r) = none := by
  simp only [tryRemoveBlock]
  rw [if_neg]
  exact fun h => hc h.1

theorem tryEmph_ne_lt (name : List Char) {c : Char} (r : List Char) (hc : c ≠ '<') :
    tryEmph name (c :: r) = none := by
  simp only [tryEmph]
  rw [if_neg]
  exact fun h => hc h.1

theorem tryHeading_ne_lt {c : Char} (r : List Char) (hc : c ≠ '<') :
    tryHeading (c :: r) = none := by
  match r with
  | [] => rfl
  | [_] => rfl
  | h :: d :: rest =>
    simp only [tryHeading]
    rw [if_neg]
    exact fun hh => hc hh.1

theorem findGt_append {a : List Char} (b : List Char) (ha : '>' ∉ a) :
    findGt (a ++ '>' :: b) = some a.length := by
  induction a with
  | nil => rfl
  | cons c t ih =>
    have hc : c ≠ '>' := fun h => ha (h ▸ List.mem_cons_self c t)
    simp only [List.cons_append, findGt, if_neg hc, List.append_eq]
    rw [ih (fun h => ha (List.mem_cons_of_mem _ h))]
    rfl

theorem litCloseAt_ne {cl : List Char} {c : Char} (r : List Char) (hc : c ≠ '<') :
    litCloseAt ('<' :: cl) (c :: r) = none := by
  unfold litCloseAt
  rw [if_neg]
  intro h
  exact hc (lc_fix (Or.inl (by decide)) (ciPref_head h))

theorem litCloseAt_self {cl : List Char} (rest : List Char) (h : ('<' :: cl).map lc = '<' :: cl) :
    litCloseAt ('<' :: cl) (('<' :: cl) ++ rest) = some (cl.length + 1) := by
  unfold litCloseAt
  rw [if_pos (ciPref_self rest h)]
  rfl

theorem hCloseAt_ne {c : Char} (r : List Char) (hc : c ≠ '<') :
    hCloseAt (c :: r) = none := by
  match r with
  | [] => rfl
  | [_] => rfl
  | [_, _] => rfl
  | [_, _, _] => rfl
  | b :: h :: d :: e :: rest =>
    simp only [hCloseAt]
    rw [if_neg]
    exact fun hh => hc hh.1

theorem hCloseAt_pos {d : Char} (hd : hDigit d) (u : List Char) :
    hCloseAt ('<' :: '/' :: 'h' :: d :: '>' :: u) = some 5 := by
  have hlch : lc 'h' = 'h' := by decide
  simp [hCloseAt, hd, hlch]

theorem findCap_append (closeAt : List Char → Option Nat) {t : List Char} (rest : List Char)
    (n : Nat) (ht : ∀ c ∈ t, lineTerm c = false)
    (hfail : ∀ c r, c ∈ t → closeAt (c :: r) = none)
    (hclose : closeAt rest = some n) (hrest : rest ≠ []) :
    findCap closeAt (t ++ rest) = some (t, t.length + n) := by
  induction t with
  | nil =>
    cases rest with
    | nil => exact absurd rfl hrest
    | cons c r =>
      simp only [List.nil_append, findCap]
      rw [hclose]
      simp
  | cons c t' ih =>
    have hc1 : closeAt (c :: (t' ++ rest)) = none := hfail c _ (List.mem_cons_self c t')
    have hc2 : lineTerm c = false := ht c (List.mem_cons_self c t')
    simp only [List.cons_append, findCap, List.append_eq]
    rw [hc1, hc2]
    simp only [Bool.false_eq_true, if_false]
    rw [ih (fun x hx => ht x (List.mem_cons_of_mem _ hx))
        (fun x r hx => hfail x r (List.mem_cons_of_mem _ hx))]
    simp only [List.length_cons, Option.some.injEq, Prod.mk.injEq, true_and]
    omega

theorem drop_parts (a b : List Char) :
    (a ++ b).drop a.length = b := List.drop_left a b

/-- Dropping the full length of an opening tag, content and closing tag
lands exactly on the remainder `u`. -/
theorem drop_block (name attrs t C u : List Char) (hC : C.length = name.length + 3) :
    (name ++ (attrs ++ ('>' :: (t ++ (C ++ u))))).drop
        (name.length + attrs.length + 1 + (t.length + (name.length + 3))) = u := by
  have hsh : name ++ (attrs ++ ('>' :: (t ++ (C ++ u)))) =
      (name ++ attrs ++ '>' :: t ++ C) ++ u := by simp
  rw [hsh]
  refine List.drop_left' ?_
  simp [List.length_append, hC]
  omega

theorem tryRemoveBlock_pos (name attrs t u : List Char) (hname : name.map lc = name)
    (hattrs : '>' ∉ attrs) (ht1 : '<' ∉ t) (ht2 : ∀ c ∈ t, lineTerm c = false) :
    tryRemoveBlock name
        ('<' :: (name ++ (attrs ++ ('>' :: (t ++ (('<' :: '/' :: (name ++ ['>'])) ++ u))))))
      = some ([], name.length + attrs.length + 1 + (t.length + (name.length + 3))) := by
  have h1 : lc '<' = '<' := by decide
  have h2 : lc '/' = '/' := by decide
  have h3 : lc '>' = '>' := by decide
  have hmapclose : ('<' :: '/' :: (name ++ ['>'])).map lc = '<' :: '/' :: (name ++ ['>']) := by
    simp [h1, h2, h3, hname]
  have hcip : ciPref name
      (name ++ (attrs ++ ('>' :: (t ++ (('<' :: '/' :: (name ++ ['>'])) ++ u))))) = true :=
    ciPref_self _ hname
  have hgt : findGt (attrs ++ '>' :: (t ++ (('<' :: '/' :: (name ++ ['>'])) ++ u)))
      = some attrs.length := findGt_append _ hattrs
  have hclose : litCloseAt ('<' :: '/' :: (name ++ ['>']))
      (('<' :: '/' :: (name ++ ['>'])) ++ u) = some (name.length + 3) := by
    have h4 := litCloseAt_self u hmapclose
    have h5 : ('/' :: (name ++ ['>'])).length + 1 = name.length + 3 := by simp
    rw [h5] at h4
    exact h4
  have hcap : findCap (litCloseAt ('<' :: '/' :: (name ++ ['>'])))
      (t ++ (('<' :: '/' :: (name ++ ['>'])) ++ u)) = some (t, t.length + (name.length + 3)) := by
    refine findCap_append _ _ _ ht2 ?_ hclose (by simp)
    intro c r hc
    exact litCloseAt_ne r (fun h => ht1 (h ▸ hc))
  have hdrop1 : (name ++ (attrs ++ ('>' :: (t ++ (('<' :: '/' :: (name ++ ['>'])) ++ u))))).drop
      name.length = attrs ++ ('>' :: (t ++ (('<' :: '/' :: (name ++ ['>'])) ++ u))) :=
    drop_parts _ _
  have hdrop2 : (name ++ (attrs ++ ('>' :: (t ++ (('<' :: '/' :: (name ++ ['>'])) ++ u))))).drop
      (name.length + attrs.length + 1) = t ++ (('<' :: '/' :: (name ++ ['>'])) ++ u) := by
    have hsh : name ++ (attrs ++ ('>' :: (t ++ (('<' :: '/' :: (name ++ ['>'])) ++ u)))) =
        (name ++ attrs ++ ['>']) ++ (t ++ (('<' :: '/' :: (name ++ ['>'])) ++ u)) := by simp
    rw [hsh]
    refine List.drop_left' ?_
    simp [List.length_append]
    omega
  simp only [tryRemoveBlock, hcip, and_true, if_pos rfl, hdrop1, hgt, hdrop2, hcap, if_true]

theorem tryEmph_pos (name attrs t u : List Char) (hname : name.map lc = name)
    (hattrs : '>' ∉ attrs) (ht1 : '<' ∉ t) (ht2 : ∀ c ∈ t, lineTerm c = false) :
    tryEmph name
        ('<' :: (name ++ (attrs ++ ('>' :: (t ++ (('<' :: '/' :: (name ++ ['>'])) ++ u))))))
      = some ('*' :: '*' :: (t ++ ['*', '*']),
          name.length + attrs.length + 1 + (t.length + (name.length + 3))) := by
  have h1 : lc '<' = '<' := by decide
  have h2 : lc '/' = '/' := by decide
  have h3 : lc '>' = '>' := by decide
  have hmapclose : ('<' :: '/' :: (name ++ ['>'])).map lc = '<' :: '/' :: (name ++ ['>']) := by
    simp [h1, h2, h3, hname]
  have hcip : ciPref name
      (name ++ (attrs ++ ('>' :: (t ++ (('<' :: '/' :: (name ++ ['>'])) ++ u))))) = true :=
    ciPref_self _ hname
  have hgt : findGt (attrs ++ '>' :: (t ++ (('<' :: '/' :: (name ++ ['>'])) ++ u)))
      = some attrs.length := findGt_append _ hattrs
  have hclose : litCloseAt ('<' :: '/' :: (name ++ ['>']))
      (('<' :: '/' :: (name ++ ['>'])) ++ u) = some (name.length + 3) := by
    have h4 := litCloseAt_self u hmapclose
    have h5 : ('/' :: (name ++ ['>'])).length + 1 = name.length + 3 := by simp
    rw [h5] at h4
    exact h4
  have hcap : findCap (litCloseAt ('<' :: '/' :: (name ++ ['>'])))
      (t ++ (('<' :: '/' :: (name ++ ['>'])) ++ u)) = some (t, t.length + (name.length + 3)) := by
    refine findCap_append _ _ _ ht2 ?_ hclose (by simp)
    intro c r hc
    exact litCloseAt_ne r (fun h => ht1 (h ▸ hc))
  have hdrop1 : (name ++ (attrs ++ ('>' :: (t ++ (('<' :: '/' :: (name ++ ['>'])) ++ u))))).drop
      name.length = attrs ++ ('>' :: (t ++ (('<' :: '/' :: (name ++ ['>'])) ++ u))) :=
    drop_parts _ _
  have hdrop2 : (name ++ (attrs ++ ('>' :: (t ++ (('<' :: '/' :: (name ++ ['>'])) ++ u))))).drop
      (name.length + attrs.length + 1) = t ++ (('<' :: '/' :: (name ++ ['>'])) ++ u) := by
    have hsh : name ++ (attrs ++ ('>' :: (t ++ (('<' :: '/' :: (name ++ ['>'])) ++ u)))) =
        (name ++ attrs ++ ['>']) ++ (t ++ (('<' :: '/' :: (name ++ ['>'])) ++ u)) := by simp
    rw [hsh]
    refine List.drop_left' ?_
    simp [List.length_append]
    omega
  simp only [tryEmph, hcip, and_true, if_pos rfl, hdrop1, hgt, hdrop2, hcap, if_true]

theorem tryHeading_pos (d : Char) (attrs t u : List Char) (hd : hDigit d)
    (hattrs : '>' ∉ attrs) (ht1 : '<' ∉ t) (ht2 : ∀ c ∈ t, lineTerm c = false) :
    tryHeading ('<' :: 'h' :: d :: (attrs ++ ('>' :: (t ++ ('<' :: '/' :: 'h' :: d :: '>' :: u)))))
      = some ('\n' :: (t ++ '\n' :: (sepLine ++ ['\n'])),
          attrs.length + 1 + (t.length + 5) + 2) := by
  have hgt : findGt (attrs ++ '>' :: (t ++ ('<' :: '/' :: 'h' :: d :: '>' :: u)))
      = some attrs.length := findGt_append _ hattrs
  have hclose : hCloseAt ('<' :: '/' :: 'h' :: d :: '>' :: u) = some 5 := hCloseAt_pos hd u
  have hcap : findCap hCloseAt (t ++ ('<' :: '/' :: 'h' :: d :: '>' :: u))
      = some (t, t.length + 5) := by
    refine findCap_append _ _ _ ht2 ?_ hclose (by simp)
    intro c r hc
    exact hCloseAt_ne r (fun h => ht1 (h ▸ hc))
  have hdrop : (attrs ++ ('>' :: (t ++ ('<' :: '/' :: 'h' :: d :: '>' :: u)))).drop
      (attrs.length + 1) = t ++ ('<' :: '/' :: 'h' :: d :: '>' :: u) := by
    have hsh : attrs ++ ('>' :: (t ++ ('<' :: '/' :: 'h' :: d :: '>' :: u))) =
        (attrs ++ ['>']) ++ (t ++ ('<' :: '/' :: 'h' :: d :: '>' :: u)) := by simp
    rw [hsh]
    refine List.drop_left' ?_
    simp
  have hlch : lc 'h' = 'h' := by decide
  simp only [tryHeading, hlch, hd, and_true, true_and, if_pos rfl, hgt, hdrop, hcap, if_true]

theorem drop_hblock (d : Char) (attrs t u : List Char) :
    ('h' :: d :: (attrs ++ ('>' :: (t ++ ('<' :: '/' :: 'h' :: d :: '>' :: u))))).drop
      (attrs.length + 1 + (t.length + 5) + 2) = u := by
  have hsh : 'h' :: d :: (attrs ++ ('>' :: (t ++ ('<' :: '/' :: 'h' :: d :: '>' :: u)))) =
      ('h' :: d :: (attrs ++ '>' :: t ++ ['<', '/', 'h', d, '>'])) ++ u := by simp
  rw [hsh]
  refine List.drop_left' ?_
  simp [List.length_append]
  omega

/-- C4 as stated is false: because the source regexes for script and
style blocks have no dotall flag, `.*?` cannot cross a line terminator,
so a block whose contents span multiple lines is not removed; only its
tags are later stripped by the generic tag rule and its contents stay in
the output.  Concretely the script text `bad` and `code` both survive
into the output here. -/
theorem claimC4_counterexample :
    stripHtmlS "<script>bad\ncode</script>ok" = "bad\ncodeok" ∧
      ['b', 'a', 'd'] <+: stripHtmlL ("<script>bad\ncode</script>ok".toList) := by
  constructor
  · decide
  · decide

/-- C4 amended: the first step of the normalizer removes every script
block and every style block — the tags and all of their contents —
whose contents contain no line terminator (and whose contents and
attributes contain no stray `'<'` or `'>'` that would make the
non-greedy match stop elsewhere); blocks whose contents span multiple
lines are not removed by this step. -/
theorem claimC4 (pre attrs t u : List Char) (hpre : '<' ∉ pre) (hattrs : '>' ∉ attrs)
    (ht1 : '<' ∉ t) (ht2 : ∀ c ∈ t, lineTerm c = false) :
    scan (tryRemoveBlock scriptName) (pre ++ tagBlock scriptName attrs t u)
        = pre ++ scan (tryRemoveBlock scriptName) u ∧
      scan (tryRemoveBlock styleName) (pre ++ tagBlock styleName attrs t u)
        = pre ++ scan (tryRemoveBlock styleName) u := by
  constructor
  · rw [scan_append_of_fail _ pre _
      (fun c r hc => tryRemoveBlock_ne_lt _ r (fun h => hpre (h ▸ hc)))]
    congr 1
    unfold tagBlock
    rw [scan_cons]
    rw [tryRemoveBlock_pos scriptName attrs t u (by decide) hattrs ht1 ht2]
    dsimp only
    rw [drop_block scriptName attrs t ('<' :: '/' :: (scriptName ++ ['>'])) u (by simp)]
    simp
  · rw [scan_append_of_fail _ pre _
      (fun c r hc => tryRemoveBlock_ne_lt _ r (fun h => hpre (h ▸ hc)))]
    congr 1
    unfold tagBlock
    rw [scan_cons]
    rw [tryRemoveBlock_pos styleName attrs t u (by decide) hattrs ht1 ht2]
    dsimp only
    rw [drop_block styleName attrs t ('<' :: '/' :: (styleName ++ ['>'])) u (by simp)]
    simp

theorem claimC4_witness :
    ('<' ∉ ([] : List Char)) ∧ ('>' ∉ ([] : List Char)) ∧
      ('<' ∉ ['e', 'v', 'i', 'l']) ∧ (∀ c ∈ ['e', 'v', 'i', 'l'], lineTerm c = false) ∧
      scan (tryRemoveBlock scriptName) ([] ++ tagBlock scriptName [] ['e', 'v', 'i', 'l'] ['o', 'k'])
        = [] ++ scan (tryRemoveBlock scriptName) ['o', 'k'] :=
  ⟨by decide, by decide, by decide, by decide,
    (claimC4 [] [] ['e', 'v', 'i', 'l'] ['o', 'k'] (by decide) (by decide) (by decide)
      (by decide)).1⟩

/-- C5 as stated is false: the heading regex has no dotall flag, so its
lazy `.*?` cannot cross a line terminator and a heading whose inner text
spans two lines is not converted — the output contains no separator line
of `'='` characters at all; only the tags are later stripped by the
generic tag rule, leaving the inner text unchanged. -/
theorem claimC5_counterexample :
    stripHtmlS "<h1>a\nb</h1>" = "a\nb" ∧
      '=' ∉ stripHtmlL ("<h1>a\nb</h1>".toList) := by
  constructor
  · decide
  · decide

/-- C5 amended: every heading element of level 1 to 6 whose inner text
contains no line terminator (and no nested `'<'`, which would make the
non-greedy match stop elsewhere) — opening tag with any attributes,
inner text, closing tag — is converted into a newline, the inner text, a
newline, the separator line of 40 `'='` characters and a trailing
newline; headings whose inner text spans multiple lines are not
converted by this step.  On the spec's example the full normalizer
produces exactly `Title`, the 40-character separator line and
`Body text` on three lines, with no angle-bracket tag left. -/
theorem claimC5 (pre : List Char) (d : Char) (attrs t u : List Char)
    (hpre : '<' ∉ pre) (hd : hDigit d) (hattrs : '>' ∉ attrs) (ht1 : '<' ∉ t)
    (ht2 : ∀ c ∈ t, lineTerm c = false) :
    scan tryHeading (pre ++ headingBlock d attrs t u)
        = pre ++ ('\n' :: (t ++ '\n' :: (sepLine ++ '\n' :: scan tryHeading u))) ∧
      stripHtmlS "<h1>Title</h1><p>Body text</p>"
        = "Title\n========================================\nBody text" := by
  constructor
  · rw [scan_append_of_fail _ pre _
      (fun c r hc => tryHeading_ne_lt r (fun h => hpre (h ▸ hc)))]
    congr 1
    unfold headingBlock
    rw [scan_cons]
    rw [tryHeading_pos d attrs t u hd hattrs ht1 ht2]
    dsimp only
    rw [drop_hblock d attrs t u]
    simp
  · decide

theorem claimC5_witness :
    ('<' ∉ ([] : List Char)) ∧ hDigit '2' = true ∧ ('>' ∉ ([] : List Char)) ∧
      ('<' ∉ ['H', 'i']) ∧ (∀ c ∈ ['H', 'i'], lineTerm c = false) ∧
      scan tryHeading ([] ++ headingBlock '2' [] ['H', 'i'] [])
        = [] ++ ('\n' :: (['H', 'i'] ++ '\n' :: (sepLine ++ '\n' :: scan tryHeading []))) :=
  ⟨by decide, by decide, by decide, by decide, by decide,
    (claimC5 [] '2' [] ['H', 'i'] [] (by decide) (by decide) (by decide) (by decide)
      (by decide)).1⟩

/-- C6 as stated is false: the strong and b regexes have no dotall
flag, so their lazy `.*?` cannot cross a line terminator and a strong
element whose inner text spans two lines is not converted — the output
contains no `'*'` at all; only the tags are later stripped by the
generic tag rule, leaving the inner text unchanged and unwrapped. -/
theorem claimC6_counterexample :
    stripHtmlS "<strong>a\nb</strong>" = "a\nb" ∧
      '*' ∉ stripHtmlL ("<strong>a\nb</strong>".toList) := by
  constructor
  · decide
  · decide

/-- C6 amended: every strong element and every b element whose inner
text contains no line terminator (and no nested `'<'`, which would make
the non-greedy match stop elsewhere) — opening tag with any attributes,
inner text, closing tag — is converted into the inner text wrapped in
double asterisks; elements whose inner text spans multiple lines are
not converted by this step.  On the spec's example the full normalizer
returns exactly `**Bold** plain`. -/
theorem claimC6 (pre attrs t u : List Char) (hpre : '<' ∉ pre) (hattrs : '>' ∉ attrs)
    (ht1 : '<' ∉ t) (ht2 : ∀ c ∈ t, lineTerm c = false) :
    scan (tryEmph strongName) (pre ++ tagBlock strongName attrs t u)
        = pre ++ ('*' :: '*' :: (t ++ '*' :: '*' :: scan (tryEmph strongName) u)) ∧
      scan (tryEmph ['b']) (pre ++ tagBlock ['b'] attrs t u)
        = pre ++ ('*' :: '*' :: (t ++ '*' :: '*' :: scan (tryEmph ['b']) u)) ∧
      stripHtmlS "<strong>Bold</strong> plain" = "**Bold** plain" := by
  refine ⟨?_, ?_, by decide⟩
  · rw [scan_append_of_fail _ pre _
      (fun c r hc => tryEmph_ne_lt _ r (fun h => hpre (h ▸ hc)))]
    congr 1
    unfold tagBlock
    rw [scan_cons]
    rw [tryEmph_pos strongName attrs t u (by decide) hattrs ht1 ht2]
    dsimp only
    rw [drop_block strongName attrs t ('<' :: '/' :: (strongName ++ ['>'])) u (by simp)]
    simp
  · rw [scan_append_of_fail _ pre _
      (fun c r hc => tryEmph_ne_lt _ r (fun h => hpre (h ▸ hc)))]
    congr 1
    unfold tagBlock
    rw [scan_cons]
    rw [tryEmph_pos ['b'] attrs t u (by decide) hattrs ht1 ht2]
    dsimp only
    rw [drop_block ['b'] attrs t ('<' :: '/' :: (['b'] ++ ['>'])) u (by simp)]
    simp

theorem dropWhile_head_false {p : Char → Bool} {l : List Char} {c : Char} {t : List Char}
    (h : l.dropWhile p = c :: t) : p c = false := by
  induction l generalizing c t with
  | nil => simp at h
  | cons a r ih =>
    by_cases ha : p a
    · rw [List.dropWhile_cons_of_pos ha] at h
      exact ih h
    · rw [List.dropWhile_cons_of_neg ha] at h
      cases h
      simpa using ha

theorem dropWhile_of_head_false {p : Char → Bool} {c : Char} (t : List Char)
    (h : p c = false) : (c :: t).dropWhile p = c :: t :=
  List.dropWhile_cons_of_neg (by simp [h])

theorem dropWhile_pre {p : Char → Bool} (l : List Char) :
    ∃ s, s ++ l.dropWhile p = l := by
  induction l with
  | nil => exact ⟨[], rfl⟩
  | cons a r ih =>
    by_cases ha : p a
    · obtain ⟨s, hs⟩ := ih
      exact ⟨a :: s, by simp [List.dropWhile_cons_of_pos ha, hs]⟩
    · exact ⟨[], by simp [List.dropWhile_cons_of_neg ha]⟩

theorem dropWhile_idem {p : Char → Bool} (l : List Char) :
    (l.dropWhile p).dropWhile p = l.dropWhile p := by
  cases h : l.dropWhile p with
  | nil => rfl
  | cons c t => exact dropWhile_of_head_false t (dropWhile_head_false h)

/-- The trimmed string decomposes the original: whitespace prefix,
result, whitespace suffix. -/
theorem jsTrimL_parts (l : List Char) : ∃ x y, x ++ (jsTrimL l ++ y) = l := by
  obtain ⟨x, hx⟩ := dropWhile_pre (p := jsWs) l
  obtain ⟨s, hs⟩ := dropWhile_pre (p := jsWs) (l.dropWhile jsWs).reverse
  refine ⟨x, s.reverse, ?_⟩
  have : jsTrimL l ++ s.reverse = l.dropWhile jsWs := by
    unfold jsTrimL
    have := congrArg List.reverse hs
    simpa using this
  rw [this, hx]

theorem jsTrimL_head {l : List Char} {c : Char} {t : List Char}
    (h : jsTrimL l = c :: t) : jsWs c = false := by
  unfold jsTrimL at h
  obtain ⟨s, hs⟩ := dropWhile_pre (p := jsWs) (l.dropWhile jsWs).reverse
  have h2 := congrArg List.reverse hs
  simp only [List.reverse_append, List.reverse_reverse, h] at h2
  exact dropWhile_head_false h2.symm

theorem jsTrimL_last {l : List Char} {c : Char}
    (h : (jsTrimL l).getLast? = some c) : jsWs c = false := by
  unfold jsTrimL at h
  rw [List.getLast?_reverse] at h
  cases hh : ((l.dropWhile jsWs).reverse.dropWhile jsWs) with
  | nil => rw [hh] at h; simp at h
  | cons a r =>
    rw [hh] at h
    simp only [List.head?_cons, Option.some.injEq] at h
    subst h
    exact dropWhile_head_false hh

/-- Trimming is the identity on a string whose first and last characters
are not whitespace. -/
theorem jsTrimL_noop {c : Char} {t : List Char} (hc : jsWs c = false)
    (hl : ∀ x, (c :: t).getLast? = some x → jsWs x = false) :
    jsTrimL (c :: t) = c :: t := by
  unfold jsTrimL
  rw [dropWhile_of_head_false t hc]
  cases hh : (c :: t).reverse with
  | nil => simp at hh
  | cons a r =>
    have ha : jsWs a = false := by
      refine hl a ?_
      rw [← List.head?_reverse, hh]
      rfl
    rw [dropWhile_of_head_false r ha, ← hh, List.reverse_reverse]

theorem jsTrimL_idem (l : List Char) : jsTrimL (jsTrimL l) = jsTrimL l := by
  cases hv : jsTrimL l with
  | nil => rfl
  | cons c t =>
    refine jsTrimL_noop (jsTrimL_head hv) ?_
    intro x hx
    exact jsTrimL_last (by rw [hv]; exact hx)

/-- Trimming a string that starts with a single newline followed by a
non-whitespace character removes exactly that newline, when the last
character is not whitespace either. -/
theorem jsTrimL_newline {c : Char} {t : List Char} (hc : jsWs c = false)
    (hl : ∀ x, (c :: t).getLast? = some x → jsWs x = false) :
    jsTrimL ('\n' :: c :: t) = c :: t := by
  unfold jsTrimL
  have h1 : ('\n' :: c :: t).dropWhile jsWs = c :: t := by
    rw [List.dropWhile_cons_of_pos (by decide), dropWhile_of_head_false t hc]
  rw [h1]
  cases hh : (c :: t).reverse with
  | nil => simp at hh
  | cons a r =>
    have ha : jsWs a = false := by
      refine hl a ?_
      rw [← List.head?_reverse, hh]
      rfl
    rw [dropWhile_of_head_false r ha, ← hh, List.reverse_reverse]

theorem claimC6_witness :
    ('<' ∉ ([] : List Char)) ∧ ('>' ∉ ([] : List Char)) ∧
      ('<' ∉ ['h', 'i']) ∧ (∀ c ∈ ['h', 'i'], lineTerm c = false) ∧
      scan (tryEmph strongName) ([] ++ tagBlock strongName [] ['h', 'i'] [])
        = [] ++ ('*' :: '*' :: (['h', 'i'] ++ '*' :: '*' :: scan (tryEmph strongName) [])) :=
  ⟨by decide, by decide, by decide, by decide,
    (claimC6 [] [] ['h', 'i'] [] (by decide) (by decide) (by decide) (by decide)).1⟩

theorem getLast?_cons_some {α : Type} (b : α) (bs : List α) : ∃ a, (b :: bs).getLast? = some a := by
  induction bs generalizing b with
  | nil => exact ⟨b, rfl⟩
  | cons c cs ih =>
    obtain ⟨a, ha⟩ := ih c
    exact ⟨a, by rw [List.getLast?_cons_cons]; exact ha⟩

theorem getLast?_append_right {y : List Char} (x : List Char) (hy : y ≠ []) :
    (x ++ y).getLast? = y.getLast? := by
  cases y with
  | nil => exact absurd rfl hy
  | cons b bs =>
    obtain ⟨a, ha⟩ := getLast?_cons_some b bs
    rw [List.getLast?_append, ha]
    rfl

theorem mem_of_getLast?_eq {α : Type} {l : List α} {a : α} (h : l.getLast? = some a) : a ∈ l := by
  induction l with
  | nil => simp at h
  | cons b bs ih =>
    cases bs with
    | nil =>
      simp only [List.getLast?_singleton, Option.some.injEq] at h
      simp [h]
    | cons c cs =>
      rw [List.getLast?_cons_cons] at h
      exact List.mem_cons_of_mem _ (ih h)

theorem head?_append_left {x : List Char} (y : List Char) (hx : x ≠ []) :
    (x ++ y).head? = x.head? := by
  cases x with
  | nil => exact absurd rfl hx
  | cons a t => rfl

theorem splitNL_exists (l : List Char) : ∃ s ss, splitNL l = s :: ss := by
  induction l with
  | nil => exact ⟨[], [], rfl⟩
  | cons c rest ih =>
    by_cases hc : c = '\n'
    · exact ⟨[], splitNL rest, by simp [splitNL, hc]⟩
    · obtain ⟨s, ss, h⟩ := ih
      exact ⟨c :: s, ss, by simp [splitNL, hc, h]⟩

theorem splitNL_nl_cons (l : List Char) : splitNL ('\n' :: l) = [] :: splitNL l := by
  simp [splitNL]

theorem splitNL_cons_ne {c : Char} (hc : c ≠ '\n') (l : List Char) {s : List Char}
    {ss : List (List Char)} (h : splitNL l = s :: ss) :
    splitNL (c :: l) = (c :: s) :: ss := by
  simp [splitNL, hc, h]

theorem splitNL_no_nl {l : List Char} (h : '\n' ∉ l) : splitNL l = [l] := by
  induction l with
  | nil => rfl
  | cons c rest ih =>
    have hc : c ≠ '\n' := fun hx => h (hx ▸ List.mem_cons_self c rest)
    have ht := ih (fun hx => h (List.mem_cons_of_mem _ hx))
    exact splitNL_cons_ne hc rest ht

/-- Splitting distributes over a newline join point. -/
theorem splitNL_append (a b : List Char) :
    splitNL (a ++ '\n' :: b) = splitNL a ++ splitNL b := by
  induction a with
  | nil => simp [splitNL]
  | cons c t ih =>
    by_cases hc : c = '\n'
    · subst hc
      rw [List.cons_append, splitNL_nl_cons, splitNL_nl_cons, ih]
      rfl
    · obtain ⟨s, ss, hs⟩ := splitNL_exists t
      have h2 : splitNL (t ++ '\n' :: b) = s :: (ss ++ splitNL b) := by
        rw [ih, hs]
        rfl
      rw [List.cons_append, splitNL_cons_ne hc _ h2, splitNL_cons_ne hc _ hs]
      rfl

theorem splitNL_head_pre : ∀ {l s : List Char} {ss : List (List Char)},
    splitNL l = s :: ss → ∃ r, l = s ++ r := by
  intro l
  induction l with
  | nil =>
    intro s ss h
    simp only [splitNL, List.cons.injEq] at h
    exact ⟨[], by simp [← h.1]⟩
  | cons c t ih =>
    intro s ss h
    by_cases hc : c = '\n'
    · subst hc
      rw [splitNL_nl_cons] at h
      cases h
      exact ⟨'\n' :: t, rfl⟩
    · obtain ⟨s', ss', hs⟩ := splitNL_exists t
      rw [splitNL_cons_ne hc _ hs] at h
      cases h
      obtain ⟨r, hr⟩ := ih hs
      exact ⟨r, by rw [List.cons_append, ← hr]⟩

theorem splitNL_pieces_no_nl : ∀ {l p : List Char}, p ∈ splitNL l → '\n' ∉ p := by
  intro l
  induction l with
  | nil =>
    intro p hp
    simp only [splitNL, List.mem_singleton] at hp
    simp [hp]
  | cons c t ih =>
    intro p hp
    by_cases hc : c = '\n'
    · subst hc
      rw [splitNL_nl_cons] at hp
      rcases List.mem_cons.mp hp with h | h
      · simp [h]
      · exact ih h
    · obtain ⟨s, ss, hs⟩ := splitNL_exists t
      rw [splitNL_cons_ne hc _ hs] at hp
      rcases List.mem_cons.mp hp with h | h
      · subst h
        intro hmem
        rcases List.mem_cons.mp hmem with h2 | h2
        · exact hc h2.symm
        · exact ih (hs ▸ List.mem_cons_self s ss) h2
      · exact ih (hs ▸ List.mem_cons_of_mem s h)

theorem splitNL_append_no_nl {m : List Char} (hm : '\n' ∉ m) {X s : List Char}
    {ss : List (List Char)} (h : splitNL X = s :: ss) :
    splitNL (m ++ X) = (m ++ s) :: ss := by
  induction m with
  | nil => simpa using h
  | cons c m' ih =>
    have hc : c ≠ '\n' := fun hx => hm (hx ▸ List.mem_cons_self c m')
    have h2 := ih (fun hx => hm (List.mem_cons_of_mem _ hx))
    rw [List.cons_append, splitNL_cons_ne hc _ h2]
    rfl

theorem joinNL_cons {ss : List (List Char)} (s : List Char) (h : ss ≠ []) :
    joinNL (s :: ss) = s ++ '\n' :: joinNL ss := by
  cases ss with
  | nil => exact absurd rfl h
  | cons a t => rfl

theorem joinNL_ne_nil {s : List Char} (ss : List (List Char)) (hs : s ≠ []) :
    joinNL (s :: ss) ≠ [] := by
  cases ss with
  | nil => exact hs
  | cons a t =>
    simp only [joinNL]
    intro h
    exact hs (List.append_eq_nil.mp h).1

/-- Splitting after joining recovers the groups' own lines. -/
theorem splitNL_joinNL : ∀ {gs : List (List Char)}, gs ≠ [] →
    splitNL (joinNL gs) = (gs.map splitNL).flatten := by
  intro gs
  induction gs with
  | nil => intro h; exact absurd rfl h
  | cons g gs' ih =>
    intro _
    cases gs' with
    | nil => simp [joinNL]
    | cons g' gs'' =>
      rw [joinNL_cons g (by simp), splitNL_append, ih (by simp)]
      simp

theorem drop_countWhile {p : Char → Bool} (l : List Char) :
    l.drop (countWhile p l) = l.dropWhile p := by
  induction l with
  | nil => rfl
  | cons c t ih =>
    by_cases hc : p c
    · rw [List.dropWhile_cons_of_pos hc]
      have : countWhile p (c :: t) = countWhile p t + 1 := by
        simp [countWhile, List.takeWhile_cons_of_pos hc]
      rw [this]
      exact ih
    · have h0 : countWhile p (c :: t) = 0 := by
        simp [countWhile, List.takeWhile_cons_of_neg hc]
      rw [h0, List.dropWhile_cons_of_neg hc]
      rfl

theorem chain'_drop {R : Char → Char → Prop} {l : List Char} (h : List.Chain' R l) (k : Nat) :
    List.Chain' R (l.drop k) := by
  have hd := List.take_append_drop k l
  rw [← hd] at h
  exact (List.chain'_append.mp h).2.1

theorem chain'_of_parts {R : Char → Char → Prop} {x m y l : List Char}
    (hl : x ++ (m ++ y) = l) (h : List.Chain' R l) : List.Chain' R m := by
  rw [← hl] at h
  exact (List.chain'_append.mp ((List.chain'_append.mp h).2.1)).1

theorem scan_trySpaces_head (l : List Char) : (scan trySpaces l).head? = l.head? := by
  cases l with
  | nil => rfl
  | cons c rest =>
    rw [scan_cons]
    by_cases hc : c = ' '
    · subst hc
      simp [trySpaces]
    · simp [trySpaces, hc]

theorem spacePairFree_scan_trySpaces : ∀ (n : Nat) (l : List Char), l.length ≤ n →
    spacePairFree (scan trySpaces l) := by
  intro n
  induction n with
  | zero =>
    intro l hl
    have : l = [] := List.length_eq_zero.mp (Nat.le_zero.mp hl)
    subst this
    exact List.chain'_nil
  | succ n ih =>
    intro l hl
    cases l with
    | nil => exact List.chain'_nil
    | cons c rest =>
      have hrest : rest.length ≤ n := by simpa using hl
      rw [scan_cons]
      by_cases hc : c = ' '
      · subst hc
        have htry : trySpaces (' ' :: rest) =
            some ([' '], countWhile (fun c => c = ' ') rest) := by simp [trySpaces]
        rw [htry]
        dsimp only
        rw [drop_countWhile]
        unfold spacePairFree
        rw [List.singleton_append, List.chain'_cons']
        constructor
        · intro y hy
          rw [scan_trySpaces_head] at hy
          rintro ⟨-, h2⟩
          subst h2
          cases hdw : rest.dropWhile (fun c => c = ' ') with
          | nil => rw [hdw] at hy; simp at hy
          | cons a u =>
            rw [hdw] at hy
            simp only [List.head?_cons, Option.mem_def, Option.some.injEq] at hy
            have := dropWhile_head_false hdw
            rw [hy] at this
            simp at this
        · refine ih _ ?_
          obtain ⟨s, hs⟩ := dropWhile_pre (p := fun c => decide (c = ' ')) rest
          have hlen := congrArg List.length hs
          simp only [List.length_append] at hlen
          omega
      · have htry : trySpaces (c :: rest) = none := by simp [trySpaces, hc]
        rw [htry]
        dsimp only
        unfold spacePairFree
        rw [List.chain'_cons']
        refine ⟨?_, ih rest hrest⟩
        intro y hy
        rintro ⟨h1, -⟩
        exact hc h1

theorem scan_tryNewlines_head (l : List Char) : (scan tryNewlines l).head? = l.head? := by
  cases l with
  | nil => rfl
  | cons c rest =>
    rw [scan_cons]
    cases rest with
    | nil => rfl
    | cons d rest' =>
      by_cases h : c = '\n' ∧ d = '\n'
      · obtain ⟨h1, h2⟩ := h
        subst h1; subst h2
        simp [tryNewlines]
      · simp [tryNewlines, h]

theorem spacePairFree_scan_tryNewlines : ∀ (n : Nat) (l : List Char), l.length ≤ n →
    spacePairFree l → spacePairFree (scan tryNewlines l) := by
  intro n
  induction n with
  | zero =>
    intro l hl _
    have : l = [] := List.length_eq_zero.mp (Nat.le_zero.mp hl)
    subst this
    exact List.chain'_nil
  | succ n ih =>
    intro l hl hch
    cases l with
    | nil => exact List.chain'_nil
    | cons c rest =>
      have hrest : rest.length ≤ n := by simpa using hl
      have hchrest : spacePairFree rest := (List.chain'_cons'.mp hch).2
      rw [scan_cons]
      cases rest with
      | nil =>
        have htry : tryNewlines [c] = none := rfl
        rw [htry]
        exact List.chain'_singleton c
      | cons d rest' =>
        by_cases hnn : c = '\n' ∧ d = '\n'
        · obtain ⟨h1, h2⟩ := hnn
          subst h1; subst h2
          have htry : tryNewlines ('\n' :: '\n' :: rest') =
              some (['\n'], countWhile (fun c => c = '\n') rest' + 1) := by
            simp [tryNewlines]
          rw [htry]
          dsimp only
          unfold spacePairFree
          rw [List.singleton_append, List.chain'_cons']
          constructor
          · intro y _
            rintro ⟨h1, -⟩
            simp at h1
          · refine ih _ ?_ ?_
            · simp only [List.length_drop, List.length_cons]
              simp only [List.length_cons] at hrest
              omega
            · exact chain'_drop ((List.chain'_cons'.mp hchrest).2) _
        · have htry : tryNewlines (c :: d :: rest') = none := by simp [tryNewlines, hnn]
          rw [htry]
          dsimp only
          unfold spacePairFree
          rw [List.chain'_cons']
          refine ⟨?_, ih _ hrest hchrest⟩
          intro y hy
          rw [scan_tryNewlines_head] at hy
          simp only [List.head?_cons, Option.mem_def, Option.some.injEq] at hy
          subst hy
          exact (List.chain'_cons'.mp hch).1 d (by rfl)

theorem spacePairFree_pieces {l : List Char} (h : spacePairFree l) :
    ∀ p ∈ splitNL l, spacePairFree p := by
  induction l with
  | nil =>
    intro p hp
    simp only [splitNL, List.mem_singleton] at hp
    subst hp
    exact List.chain'_nil
  | cons c t ih =>
    intro p hp
    have hcht : spacePairFree t := (List.chain'_cons'.mp h).2
    by_cases hc : c = '\n'
    · subst hc
      rw [splitNL_nl_cons] at hp
      rcases List.mem_cons.mp hp with h2 | h2
      · subst h2; exact List.chain'_nil
      · exact ih hcht p h2
    · obtain ⟨s, ss, hs⟩ := splitNL_exists t
      rw [splitNL_cons_ne hc _ hs] at hp
      rcases List.mem_cons.mp hp with h2 | h2
      · subst h2
        obtain ⟨r, hr⟩ := splitNL_head_pre hs
        have : List.Chain' (fun a b => ¬(a = ' ' ∧ b = ' ')) ((c :: s) ++ r) := by
          rw [show (c :: s) ++ r = c :: t from by rw [List.cons_append, ← hr]]
          exact h
        exact (List.chain'_append.mp this).1
      · exact ih hcht p (hs ▸ List.mem_cons_of_mem s h2)

theorem spacePairFree_jsTrimL {l : List Char} (h : spacePairFree l) :
    spacePairFree (jsTrimL l) := by
  obtain ⟨x, y, hxy⟩ := jsTrimL_parts l
  exact chain'_of_parts hxy h

theorem spacePairFree_joinNL : ∀ {gs : List (List Char)},
    (∀ s ∈ gs, spacePairFree s) → spacePairFree (joinNL gs) := by
  intro gs
  induction gs with
  | nil => intro _; exact List.chain'_nil
  | cons g gs' ih =>
    intro h
    cases gs' with
    | nil => exact h g (List.mem_cons_self g [])
    | cons g' gs'' =>
      rw [joinNL_cons g (by simp)]
      unfold spacePairFree
      rw [List.chain'_append]
      refine ⟨h g (List.mem_cons_self _ _), ?_, ?_⟩
      · rw [List.chain'_cons']
        refine ⟨?_, ih (fun s hs => h s (List.mem_cons_of_mem _ hs))⟩
        intro y _
        rintro ⟨h1, -⟩
        simp at h1
      · intro x _ y hy
        simp only [List.head?_cons, Option.mem_def, Option.some.injEq] at hy
        subst hy
        rintro ⟨-, h2⟩
        simp at h2

theorem spacePairFree_cleanLines {l : List Char} (h : spacePairFree l) :
    spacePairFree (cleanLines l) := by
  unfold cleanLines
  refine spacePairFree_joinNL ?_
  intro s hs
  obtain ⟨p, hp, hps⟩ := List.mem_map.mp (List.mem_of_mem_filter hs)
  subst hps
  exact spacePairFree_jsTrimL (spacePairFree_pieces h p hp)

theorem isPrefixOf_eq : ∀ {m l : List Char}, m.isPrefixOf l = true ↔ m <+: l := by
  intro m
  induction m with
  | nil =>
    intro l
    constructor
    · intro _; exact ⟨l, rfl⟩
    · intro _; cases l <;> rfl
  | cons a as ih =>
    intro l
    cases l with
    | nil =>
      constructor
      · intro h; simp [List.isPrefixOf] at h
      · rintro ⟨t, ht⟩; simp at ht
    | cons b bs =>
      simp [List.isPrefixOf, ih, List.cons_prefix_cons]

theorem tryDisc_pos {l : List Char} (h : disclaimerMarker <+: l) :
    tryDisc l = some ('\n' :: disclaimerMarker, 14) := by
  unfold tryDisc
  rw [if_pos (isPrefixOf_eq.mpr h)]

theorem tryDisc_neg {l : List Char} (h : ¬ disclaimerMarker <+: l) :
    tryDisc l = none := by
  unfold tryDisc
  rw [if_neg (fun hx => h (isPrefixOf_eq.mp hx))]

theorem prefix_through_append {x : Char} : ∀ {a : List Char} {m b : List Char}, x ∉ m →
    (m <+: (a ++ x :: b) ↔ m <+: a) := by
  intro a
  induction a with
  | nil =>
    intro m b hx
    cases m with
    | nil => exact ⟨fun _ => ⟨[], rfl⟩, fun _ => ⟨x :: b, rfl⟩⟩
    | cons c ms =>
      constructor
      · rintro ⟨t, ht⟩
        rw [List.nil_append, List.cons_append] at ht
        have hcx : c = x := ((List.cons.injEq _ _ _ _).mp ht).1
        exact absurd (hcx ▸ List.mem_cons_self c ms) hx
      · rintro ⟨t, ht⟩
        simp at ht
  | cons a' as ih =>
    intro m b hx
    cases m with
    | nil => exact ⟨fun _ => ⟨a' :: as, rfl⟩, fun _ => ⟨a' :: as ++ x :: b, rfl⟩⟩
    | cons c ms =>
      rw [List.cons_append, List.cons_prefix_cons, List.cons_prefix_cons,
        ih (fun hm => hx (List.mem_cons_of_mem _ hm))]

theorem scanDisc_split : ∀ (n : Nat) (a b : List Char), a.length ≤ n → '\n' ∉ a →
    scan tryDisc (a ++ '\n' :: b) = scan tryDisc a ++ '\n' :: scan tryDisc b := by
  intro n
  induction n with
  | zero =>
    intro a b ha _
    have : a = [] := List.length_eq_zero.mp (Nat.le_zero.mp ha)
    subst this
    rw [List.nil_append, scan_cons, tryDisc_neg]
    · rfl
    · rintro ⟨t, ht⟩
      simp [disclaimerMarker] at ht
  | succ n ih =>
    intro a b ha hnl
    cases a with
    | nil =>
      rw [List.nil_append, scan_cons, tryDisc_neg]
      · rfl
      · rintro ⟨t, ht⟩
        simp [disclaimerMarker] at ht
    | cons c t =>
      by_cases hm : disclaimerMarker <+: (c :: t)
      · obtain ⟨a₂, ha₂⟩ := hm
        have hsplit : c = '*' ∧ disclaimerMarker.tail ++ a₂ = t := by
          have h2 : '*' :: (disclaimerMarker.tail ++ a₂) = c :: t := ha₂
          exact ⟨(((List.cons.injEq _ _ _ _).mp h2).1).symm, ((List.cons.injEq _ _ _ _).mp h2).2⟩
        obtain ⟨hc, ht⟩ := hsplit
        subst hc
        have htl : t = disclaimerMarker.tail ++ a₂ := ht.symm
        have hm1 : disclaimerMarker <+: ('*' :: t) := ⟨a₂, by rw [← ht]; rfl⟩
        have hm2 : disclaimerMarker <+: ('*' :: (t ++ '\n' :: b)) :=
          ⟨a₂ ++ '\n' :: b, by rw [← ht]; rfl⟩
        have hd14 : disclaimerMarker.tail.length = 14 := by decide
        have hdropL : (t ++ '\n' :: b).drop 14 = a₂ ++ '\n' :: b := by
          rw [htl, List.append_assoc]
          exact List.drop_left' hd14
        have hdropR : t.drop 14 = a₂ := by
          rw [htl]
          exact List.drop_left' hd14
        rw [List.cons_append, scan_cons, tryDisc_pos hm2]
        dsimp only
        rw [hdropL]
        rw [scan_cons, tryDisc_pos hm1]
        dsimp only
        rw [hdropR]
        have ha₂len : a₂.length ≤ n := by
          have hlen := congrArg List.length htl
          simp only [List.length_append, hd14] at hlen
          simp only [List.length_cons] at ha
          omega
        have ha₂nl : '\n' ∉ a₂ := by
          intro hx
          exact hnl (List.mem_cons_of_mem _ (htl ▸ List.mem_append_right _ hx))
        rw [ih a₂ b ha₂len ha₂nl]
        simp
      · have h1 : tryDisc (c :: (t ++ '\n' :: b)) = none := by
          refine tryDisc_neg ?_
          intro h
          have h2 : disclaimerMarker <+: ((c :: t) ++ '\n' :: b) := h
          exact hm ((prefix_through_append (by decide)).mp h2)
        have h3 : tryDisc (c :: t) = none := tryDisc_neg hm
        rw [List.cons_append, scan_cons, h1]
        dsimp only
        rw [scan_cons, h3]
        dsimp only
        rw [ih t b (by simpa using ha) (fun hx => hnl (List.mem_cons_of_mem _ hx))]
        rfl

theorem scanDisc_ne_nil {s : List Char} (hs : s ≠ []) : scan tryDisc s ≠ [] := by
  cases s with
  | nil => exact absurd rfl hs
  | cons c t =>
    rw [scan_cons]
    cases htry : tryDisc (c :: t) with
    | none => simp
    | some rk =>
      obtain ⟨rep, k⟩ := rk
      unfold tryDisc at htry
      split at htry
      · cases htry
        simp
      · cases htry

theorem scanDisc_getLast : ∀ (n : Nat) (s : List Char), s.length ≤ n → '\n' ∉ s →
    (scan tryDisc s).getLast? = s.getLast? := by
  intro n
  induction n with
  | zero =>
    intro s hs _
    have : s = [] := List.length_eq_zero.mp (Nat.le_zero.mp hs)
    subst this
    rfl
  | succ n ih =>
    intro s hs hnl
    cases s with
    | nil => rfl
    | cons c t =>
      by_cases hm : disclaimerMarker <+: (c :: t)
      · obtain ⟨a₂, ha₂⟩ := hm
        have hsplit : c = '*' ∧ disclaimerMarker.tail ++ a₂ = t := by
          have h2 : '*' :: (disclaimerMarker.tail ++ a₂) = c :: t := ha₂
          exact ⟨(((List.cons.injEq _ _ _ _).mp h2).1).symm, ((List.cons.injEq _ _ _ _).mp h2).2⟩
        obtain ⟨hc, ht⟩ := hsplit
        subst hc
        have htl : t = disclaimerMarker.tail ++ a₂ := ht.symm
        have hm1 : disclaimerMarker <+: ('*' :: t) := ⟨a₂, by rw [← ht]; rfl⟩
        have hd14 : disclaimerMarker.tail.length = 14 := by decide
        have hdropR : t.drop 14 = a₂ := by
          rw [htl]
          exact List.drop_left' hd14
        rw [scan_cons, tryDisc_pos hm1]
        dsimp only
        rw [hdropR]
        by_cases ha2 : a₂ = []
        · subst ha2
          rw [scan_nil, List.append_nil, htl, List.append_nil]
          decide
        · have hlen : a₂.length ≤ n := by
            have hlen2 := congrArg List.length htl
            simp only [List.length_append, hd14] at hlen2
            simp only [List.length_cons] at hs
            omega
          have hnl2 : '\n' ∉ a₂ :=
            fun hx => hnl (List.mem_cons_of_mem _ (htl ▸ List.mem_append_right _ hx))
          rw [getLast?_append_right _ (scanDisc_ne_nil ha2), ih a₂ hlen hnl2]
          have hR : ('*' :: t).getLast? = (disclaimerMarker ++ a₂).getLast? := by
            rw [htl]
            rfl
          rw [hR, getLast?_append_right _ ha2]
      · rw [scan_cons, tryDisc_neg hm]
        dsimp only
        cases t with
        | nil => rfl
        | cons d t' =>
          have hne : scan tryDisc (d :: t') ≠ [] := scanDisc_ne_nil (by simp)
          have h1 : (c :: scan tryDisc (d :: t')).getLast?
              = (scan tryDisc (d :: t')).getLast? := by
            cases hsc : scan tryDisc (d :: t') with
            | nil => exact absurd hsc hne
            | cons a r => rw [List.getLast?_cons_cons]
          rw [h1, ih (d :: t') (by simpa using hs) (fun hx => hnl (List.mem_cons_of_mem _ hx))]
          rw [List.getLast?_cons_cons]

theorem scanDisc_head (c : Char) (t : List Char) :
    (scan tryDisc (c :: t)).head? = some c ∨
      ∃ Z, scan tryDisc (c :: t) = '\n' :: Z ∧ Z.head? = some '*' := by
  by_cases hm : disclaimerMarker <+: (c :: t)
  · right
    rw [scan_cons, tryDisc_pos hm]
    dsimp only
    exact ⟨disclaimerMarker ++ scan tryDisc (t.drop 14), rfl, rfl⟩
  · left
    rw [scan_cons, tryDisc_neg hm]
    rfl

theorem chain'_of_no_space {l : List Char} (h : ∀ c ∈ l, c ≠ ' ') :
    List.Chain' (fun a b : Char => ¬(a = ' ' ∧ b = ' ')) l := by
  induction l with
  | nil => exact List.chain'_nil
  | cons a r ih =>
    rw [List.chain'_cons']
    refine ⟨?_, ih (fun c hc => h c (List.mem_cons_of_mem _ hc))⟩
    intro y _
    rintro ⟨h1, -⟩
    exact h a (List.mem_cons_self _ _) h1

theorem spacePairFree_scanDisc : ∀ (n : Nat) (s : List Char), s.length ≤ n →
    spacePairFree s → spacePairFree (scan tryDisc s) := by
  intro n
  induction n with
  | zero =>
    intro s hs _
    have : s = [] := List.length_eq_zero.mp (Nat.le_zero.mp hs)
    subst this
    exact List.chain'_nil
  | succ n ih =>
    intro s hs hch
    cases s with
    | nil => exact List.chain'_nil
    | cons c t =>
      by_cases hm : disclaimerMarker <+: (c :: t)
      · obtain ⟨a₂, ha₂⟩ := hm
        have hsplit : c = '*' ∧ disclaimerMarker.tail ++ a₂ = t := by
          have h2 : '*' :: (disclaimerMarker.tail ++ a₂) = c :: t := ha₂
          exact ⟨(((List.cons.injEq _ _ _ _).mp h2).1).symm, ((List.cons.injEq _ _ _ _).mp h2).2⟩
        obtain ⟨hc, ht⟩ := hsplit
        subst hc
        have htl : t = disclaimerMarker.tail ++ a₂ := ht.symm
        have hm1 : disclaimerMarker <+: ('*' :: t) := ⟨a₂, by rw [← ht]; rfl⟩
        have hd14 : disclaimerMarker.tail.length = 14 := by decide
        have hdropR : t.drop 14 = a₂ := by
          rw [htl]
          exact List.drop_left' hd14
        rw [scan_cons, tryDisc_pos hm1]
        dsimp only
        rw [hdropR]
        have hcha : spacePairFree a₂ := by
          have h3 : spacePairFree t := (List.chain'_cons'.mp hch).2
          rw [htl] at h3
          exact (List.chain'_append.mp h3).2.1
        have hlen : a₂.length ≤ n := by
          have hlen2 := congrArg List.length htl
          simp only [List.length_append, hd14] at hlen2
          simp only [List.length_cons] at hs
          omega
        show List.Chain' _ (('\n' :: disclaimerMarker) ++ scan tryDisc a₂)
        rw [List.chain'_append]
        refine ⟨chain'_of_no_space (by decide), ih a₂ hlen hcha, ?_⟩
        intro x hx y _
        have hg : ('\n' :: disclaimerMarker).getLast? = some '*' := by decide
        rw [hg] at hx
        simp only [Option.mem_def, Option.some.injEq] at hx
        subst hx
        rintro ⟨h1, -⟩
        simp at h1
      · rw [scan_cons, tryDisc_neg hm]
        dsimp only
        unfold spacePairFree
        rw [List.chain'_cons']
        constructor
        · intro y hy
          cases t with
          | nil => simp [scan_nil] at hy
          | cons d t' =>
            rcases scanDisc_head d t' with h2 | ⟨Z, hZ, -⟩
            · rw [h2] at hy
              simp only [Option.mem_def, Option.some.injEq] at hy
              subst hy
              exact (List.chain'_cons'.mp hch).1 d rfl
            · rw [hZ] at hy
              simp only [List.head?_cons, Option.mem_def, Option.some.injEq] at hy
              subst hy
              rintro ⟨-, h2⟩
              simp at h2
        · exact ih t (by simpa using hs) (List.chain'_cons'.mp hch).2

theorem scanDisc_lines : ∀ (n : Nat) (s : List Char), s.length ≤ n → '\n' ∉ s →
    ∃ p ps, splitNL (scan tryDisc s) = p :: ps ∧ p <+: s ∧
      (∀ q ∈ ps, disclaimerMarker <+: q) ∧ (p = [] → s ≠ [] → ps ≠ []) := by
  intro n
  induction n with
  | zero =>
    intro s hs _
    have : s = [] := List.length_eq_zero.mp (Nat.le_zero.mp hs)
    subst this
    exact ⟨[], [], rfl, ⟨[], rfl⟩, by simp, fun _ h => absurd rfl h⟩
  | succ n ih =>
    intro s hs hnl
    cases s with
    | nil => exact ⟨[], [], rfl, ⟨[], rfl⟩, by simp, fun _ h => absurd rfl h⟩
    | cons c t =>
      by_cases hm : disclaimerMarker <+: (c :: t)
      · obtain ⟨a₂, ha₂⟩ := hm
        have hsplit : c = '*' ∧ disclaimerMarker.tail ++ a₂ = t := by
          have h2 : '*' :: (disclaimerMarker.tail ++ a₂) = c :: t := ha₂
          exact ⟨(((List.cons.injEq _ _ _ _).mp h2).1).symm, ((List.cons.injEq _ _ _ _).mp h2).2⟩
        obtain ⟨hc, ht⟩ := hsplit
        subst hc
        have htl : t = disclaimerMarker.tail ++ a₂ := ht.symm
        have hm1 : disclaimerMarker <+: ('*' :: t) := ⟨a₂, by rw [← ht]; rfl⟩
        have hd14 : disclaimerMarker.tail.length = 14 := by decide
        have hdropR : t.drop 14 = a₂ := by
          rw [htl]
          exact List.drop_left' hd14
        have hlen : a₂.length ≤ n := by
          have hlen2 := congrArg List.length htl
          simp only [List.length_append, hd14] at hlen2
          simp only [List.length_cons] at hs
          omega
        have hnl2 : '\n' ∉ a₂ :=
          fun hx => hnl (List.mem_cons_of_mem _ (htl ▸ List.mem_append_right _ hx))
        obtain ⟨p', ps', hsp, -, hmark, -⟩ := ih a₂ hlen hnl2
        rw [scan_cons, tryDisc_pos hm1]
        dsimp only
        rw [hdropR]
        have hshape : ('\n' :: disclaimerMarker) ++ scan tryDisc a₂
            = '\n' :: (disclaimerMarker ++ scan tryDisc a₂) := rfl
        refine ⟨[], (disclaimerMarker ++ p') :: ps', ?_, ⟨'*' :: t, rfl⟩, ?_, ?_⟩
        · rw [hshape, splitNL_nl_cons, splitNL_append_no_nl (by decide) hsp]
        · intro q hq
          rcases List.mem_cons.mp hq with h2 | h2
          · subst h2
            exact ⟨p', rfl⟩
          · exact hmark q h2
        · intro _ _
          simp
      · have hc : c ≠ '\n' := fun hx => hnl (hx ▸ List.mem_cons_self c t)
        obtain ⟨p', ps', hsp, hpre, hmark, hlast⟩ :=
          ih t (by simpa using hs) (fun hx => hnl (List.mem_cons_of_mem _ hx))
        rw [scan_cons, tryDisc_neg hm]
        dsimp only
        refine ⟨c :: p', ps', splitNL_cons_ne hc _ hsp, ?_, hmark, ?_⟩
        · obtain ⟨r, hr⟩ := hpre
          exact ⟨r, by rw [← hr]; rfl⟩
        · intro h
          simp at h

theorem scanDisc_joinNL : ∀ {segs : List (List Char)}, (∀ s ∈ segs, '\n' ∉ s) →
    scan tryDisc (joinNL segs) = joinNL (segs.map (scan tryDisc)) := by
  intro segs
  induction segs with
  | nil => intro _; rfl
  | cons s segs' ih =>
    intro h
    cases segs' with
    | nil => rfl
    | cons s' segs'' =>
      rw [joinNL_cons s (by simp)]
      rw [scanDisc_split s.length s _ le_rfl (h s (List.mem_cons_self _ _))]
      rw [ih (fun x hx => h x (List.mem_cons_of_mem _ hx))]
      have hmapne : List.map (scan tryDisc) (s' :: segs'') ≠ [] := by simp
      rw [show List.map (scan tryDisc) (s :: s' :: segs'')
            = scan tryDisc s :: List.map (scan tryDisc) (s' :: segs'') from rfl]
      rw [joinNL_cons (scan tryDisc s) hmapne]

theorem wsOnly_marker_pre {q : List Char} (h : disclaimerMarker <+: q) : wsOnly q = false := by
  obtain ⟨t, ht⟩ := h
  have h2 : wsOnly ('*' :: (disclaimerMarker.tail ++ t)) = false := by
    have hws : jsWs '*' = false := by decide
    simp [wsOnly, List.all_cons, hws]
  rw [← ht]
  exact h2

theorem goodLines_tail {l : List Char} {rest : List (List Char)}
    (h : goodLines (l :: rest)) : goodLines rest := by
  cases rest with
  | nil => trivial
  | cons r rs => exact h.2

theorem goodLines_append : ∀ (g : List (List Char)), g ≠ [] → goodLines g →
    (∀ x, g.getLast? = some x → wsOnly x = false) →
    ∀ {rest : List (List Char)}, goodLines rest → goodLines (g ++ rest) := by
  intro g
  induction g with
  | nil => intro h; exact absurd rfl h
  | cons l g' ih =>
    intro _ hg hlast rest hrest
    cases g' with
    | nil =>
      cases rest with
      | nil => exact hg
      | cons r rs =>
        refine ⟨fun hws => ?_, hrest⟩
        rw [hlast l rfl] at hws
        cases hws
    | cons l' g'' =>
      refine ⟨hg.1, ?_⟩
      exact ih (by simp) hg.2
        (fun x hx => hlast x (by rw [List.getLast?_cons_cons]; exact hx)) hrest

theorem goodLines_of_markers : ∀ {ps : List (List Char)},
    (∀ q ∈ ps, disclaimerMarker <+: q) → goodLines ps := by
  intro ps
  induction ps with
  | nil => intro _; trivial
  | cons q ps' ih =>
    intro h
    cases ps' with
    | nil => exact wsOnly_marker_pre (h q (List.mem_cons_self _ _))
    | cons q' ps'' =>
      refine ⟨fun hws => ?_, ih (fun x hx => h x (List.mem_cons_of_mem _ hx))⟩
      rw [wsOnly_marker_pre (h q (List.mem_cons_self _ _))] at hws
      cases hws

theorem goodLines_of_group {s p : List Char} {ps : List (List Char)}
    (hhead : ∀ c t, s = c :: t → jsWs c = false)
    (hp : p <+: s) (hps : ∀ q ∈ ps, disclaimerMarker <+: q)
    (hpl : p = [] → ps ≠ []) :
    goodLines (p :: ps) ∧ (∀ x, (p :: ps).getLast? = some x → wsOnly x = false) := by
  have hpws : p ≠ [] → wsOnly p = false := by
    intro hpne
    cases p with
    | nil => exact absurd rfl hpne
    | cons c p'' =>
      obtain ⟨r, hr⟩ := hp
      have hc : jsWs c = false := hhead c (p'' ++ r) (by rw [← hr]; rfl)
      simp [wsOnly, List.all_cons, hc]
  constructor
  · cases ps with
    | nil =>
      have hpne : p ≠ [] := fun h => hpl h rfl
      exact hpws hpne
    | cons q ps' =>
      refine ⟨fun hws => ?_, goodLines_of_markers hps⟩
      cases hp2 : p with
      | nil => exact ⟨rfl, hps q (List.mem_cons_self _ _)⟩
      | cons c p'' =>
        rw [hpws (by simp [hp2]) ] at hws
        cases hws
  · intro x hx
    cases ps with
    | nil =>
      simp only [List.getLast?_singleton, Option.some.injEq] at hx
      subst hx
      exact hpws (fun h => hpl h rfl)
    | cons q ps' =>
      rw [List.getLast?_cons_cons] at hx
      have hxmem : x ∈ q :: ps' := mem_of_getLast?_eq hx
      exact wsOnly_marker_pre (hps x hxmem)

theorem goodLines_flatten : ∀ {G : List (List (List Char))},
    (∀ gl ∈ G, gl ≠ [] ∧ goodLines gl ∧ (∀ x, gl.getLast? = some x → wsOnly x = false)) →
    goodLines G.flatten := by
  intro G
  induction G with
  | nil => intro _; trivial
  | cons gl G' ih =>
    intro h
    rw [List.flatten_cons]
    obtain ⟨h1, h2, h3⟩ := h gl (List.mem_cons_self _ _)
    exact goodLines_append gl h1 h2 h3 (ih (fun x hx => h x (List.mem_cons_of_mem _ hx)))

theorem joinNL_getLast : ∀ {gs : List (List Char)}, gs ≠ [] → (∀ g ∈ gs, g ≠ []) →
    ∃ g, g ∈ gs ∧ (joinNL gs).getLast? = g.getLast? := by
  intro gs
  induction gs with
  | nil => intro h; exact absurd rfl h
  | cons g gs' ih =>
    intro _ hne
    cases gs' with
    | nil => exact ⟨g, List.mem_cons_self _ _, rfl⟩
    | cons g' gs'' =>
      obtain ⟨g'', hmem, heq⟩ := ih (by simp) (fun x hx => hne x (List.mem_cons_of_mem _ hx))
      refine ⟨g'', List.mem_cons_of_mem _ hmem, ?_⟩
      rw [joinNL_cons g (by simp)]
      rw [getLast?_append_right g (by simp)]
      have hJ : joinNL (g' :: gs'') ≠ [] := joinNL_ne_nil _ (hne g' (by simp))
      calc ('\n' :: joinNL (g' :: gs'')).getLast?
          = (['\n'] ++ joinNL (g' :: gs'')).getLast? := rfl
        _ = (joinNL (g' :: gs'')).getLast? := getLast?_append_right _ hJ
        _ = g''.getLast? := heq

/-- The line discipline holds for the tail of the pipeline — line
cleanup, disclaimer insertion and final trim — whatever string the
earlier stages produced. -/
theorem normalized_goodLines (x : List Char) :
    jsTrimL (scan tryDisc (cleanLines x)) = [] ∨
      goodLines (splitNL (jsTrimL (scan tryDisc (cleanLines x)))) := by
  unfold cleanLines
  cases hsegs : ((splitNL x).map jsTrimL).filter (fun s => !s.isEmpty) with
  | nil =>
    left
    rfl
  | cons s₀ segs' =>
    have hfacts : ∀ s ∈ s₀ :: segs', s ≠ [] ∧ '\n' ∉ s ∧
        (∀ c t, s = c :: t → jsWs c = false) ∧
        (∀ y, s.getLast? = some y → jsWs y = false) := by
      intro s hs
      rw [← hsegs] at hs
      have h1 := List.mem_filter.mp hs
      obtain ⟨p, hp, hps⟩ := List.mem_map.mp h1.1
      have hne : s ≠ [] := by
        intro h
        rw [h] at h1
        simp at h1
      refine ⟨hne, ?_, ?_, ?_⟩
      · intro hx
        obtain ⟨u, v, huv⟩ := jsTrimL_parts p
        rw [hps] at huv
        refine splitNL_pieces_no_nl hp ?_
        rw [← huv]
        exact List.mem_append_right u (List.mem_append_left v hx)
      · intro c t hst
        rw [hst] at hps
        exact jsTrimL_head hps
      · intro y hy
        rw [← hps] at hy
        exact jsTrimL_last hy
    have hnlall : ∀ s ∈ s₀ :: segs', '\n' ∉ s := fun s hs => (hfacts s hs).2.1
    rw [scanDisc_joinNL hnlall]
    have hmapne : ∀ g ∈ (s₀ :: segs').map (scan tryDisc), g ≠ [] := by
      intro g hg
      obtain ⟨s, hsmem, hsg⟩ := List.mem_map.mp hg
      rw [← hsg]
      exact scanDisc_ne_nil (hfacts s hsmem).1
    have hYlines : goodLines (splitNL (joinNL ((s₀ :: segs').map (scan tryDisc)))) := by
      rw [splitNL_joinNL (by simp)]
      refine goodLines_flatten ?_
      intro gl hgl
      obtain ⟨g, hg, hggl⟩ := List.mem_map.mp hgl
      obtain ⟨s, hsmem, hsg⟩ := List.mem_map.mp hg
      obtain ⟨hne, hnl, hhead, hlast⟩ := hfacts s hsmem
      obtain ⟨p, ps, hpp, hpre, hmark, hpl⟩ := scanDisc_lines s.length s le_rfl hnl
      have hglpp : gl = p :: ps := by rw [← hggl, ← hsg, hpp]
      obtain ⟨hgood, hlastws⟩ :=
        goodLines_of_group hhead hpre hmark (fun h => hpl h hne)
      rw [hglpp]
      exact ⟨by simp, hgood, hlastws⟩
    have hYlast : ∀ y, (joinNL ((s₀ :: segs').map (scan tryDisc))).getLast? = some y →
        jsWs y = false := by
      intro y hy
      obtain ⟨g, hgmem, hgeq⟩ := joinNL_getLast (by simp) hmapne
      rw [hgeq] at hy
      obtain ⟨s, hsmem, hsg⟩ := List.mem_map.mp hgmem
      rw [← hsg, scanDisc_getLast s.length s le_rfl (hfacts s hsmem).2.1] at hy
      exact (hfacts s hsmem).2.2.2 y hy
    obtain ⟨c, t, hs₀⟩ : ∃ c t, s₀ = c :: t := by
      cases hs0 : s₀ with
      | nil => exact absurd hs0 (hfacts s₀ (List.mem_cons_self _ _)).1
      | cons c t => exact ⟨c, t, rfl⟩
    subst hs₀
    have hcws : jsWs c = false :=
      (hfacts (c :: t) (List.mem_cons_self _ _)).2.2.1 c t rfl
    have hYhead : (joinNL (((c :: t) :: segs').map (scan tryDisc))).head?
        = (scan tryDisc (c :: t)).head? := by
      rw [List.map_cons]
      cases hmm : segs'.map (scan tryDisc) with
      | nil => rfl
      | cons m ms =>
        rw [joinNL_cons _ (by simp)]
        exact head?_append_left _
          (scanDisc_ne_nil (hfacts (c :: t) (List.mem_cons_self _ _)).1)
    rcases scanDisc_head c t with hA | ⟨Z, hZ, hZhead⟩
    · -- the output starts with the first segment's non-whitespace head
      right
      rw [hA] at hYhead
      cases hY : joinNL (((c :: t) :: segs').map (scan tryDisc)) with
      | nil => rw [hY] at hYhead; cases hYhead
      | cons y0 yt =>
        rw [hY] at hYhead
        simp only [List.head?_cons, Option.some.injEq] at hYhead
        have hnoop : jsTrimL (y0 :: yt) = y0 :: yt := by
          refine jsTrimL_noop (by rw [hYhead]; exact hcws) ?_
          intro z hz
          refine hYlast z ?_
          rw [hY]
          exact hz
        rw [hnoop, ← hY]
        exact hYlines
    · -- the output starts with the inserted newline before a disclaimer
      right
      have hg₀ : scan tryDisc (c :: t) = '\n' :: Z := hZ
      obtain ⟨Y', hYform, hY'head⟩ :
          ∃ Y', joinNL (((c :: t) :: segs').map (scan tryDisc)) = '\n' :: Y' ∧
            Y'.head? = some '*' := by
        rw [List.map_cons]
        cases hmm : segs'.map (scan tryDisc) with
        | nil =>
          refine ⟨Z, ?_, hZhead⟩
          rw [show joinNL [scan tryDisc (c :: t)] = scan tryDisc (c :: t) from rfl, hg₀]
        | cons m ms =>
          refine ⟨Z ++ '\n' :: joinNL (m :: ms), ?_, ?_⟩
          · rw [joinNL_cons _ (by simp), hg₀]
            rfl
          · have hZne : Z ≠ [] := by
              intro h
              rw [h] at hZhead
              cases hZhead
            rw [head?_append_left _ hZne]
            exact hZhead
      obtain ⟨c2, Yt2, hY'⟩ : ∃ c2 Yt2, Y' = c2 :: Yt2 := by
        cases hY'0 : Y' with
        | nil => rw [hY'0] at hY'head; cases hY'head
        | cons c2 Yt2 => exact ⟨c2, Yt2, rfl⟩
      have hc2 : c2 = '*' := by
        rw [hY'] at hY'head
        simpa using hY'head
      have htrim : jsTrimL ('\n' :: Y') = Y' := by
        rw [hY']
        refine jsTrimL_newline ?_ ?_
        · rw [hc2]; decide
        · intro z hz
          refine hYlast z ?_
          rw [hYform, hY']
          rw [show ('\n' :: c2 :: Yt2).getLast? = (c2 :: Yt2).getLast? from
            List.getLast?_cons_cons]
          exact hz
      rw [hYform, htrim]
      have h2 : goodLines (splitNL ('\n' :: Y')) := by
        rw [← hYform]
        exact hYlines
      rw [splitNL_nl_cons] at h2
      exact goodLines_tail h2

attribute [irreducible] preClean

theorem spacePairFree_scanDisc2 {s : List Char} (h : spacePairFree s) :
    spacePairFree (scan tryDisc s) :=
  spacePairFree_scanDisc s.length s le_rfl h

theorem spacePairFree_scan_tryNewlines2 {l : List Char} (h : spacePairFree l) :
    spacePairFree (scan tryNewlines l) :=
  spacePairFree_scan_tryNewlines l.length l le_rfl h

theorem spacePairFree_scan_trySpaces2 (l : List Char) :
    spacePairFree (scan trySpaces l) :=
  spacePairFree_scan_trySpaces l.length l le_rfl

/-- C10: for every input, the normalized output has no leading or
trailing whitespace (trimming it again changes nothing), contains no
run of two or more consecutive space characters, and — unless it is
empty — contains no line that is empty or whitespace-only except an
empty line immediately followed by a line starting with the literal
disclaimer marker, with the last line never whitespace-only. -/
theorem claimC10 (html : List Char) :
    jsTrimL (stripHtmlL html) = stripHtmlL html ∧
      spacePairFree (stripHtmlL html) ∧
      (stripHtmlL html = [] ∨ goodLines (splitNL (stripHtmlL html))) := by
  unfold stripHtmlL
  by_cases h0 : html = []
  · rw [if_pos h0]
    exact ⟨rfl, List.chain'_nil, Or.inl rfl⟩
  · rw [if_neg h0]
    refine ⟨jsTrimL_idem _, ?_, normalized_goodLines _⟩
    exact spacePairFree_jsTrimL (spacePairFree_scanDisc2 (spacePairFree_cleanLines
      (spacePairFree_scan_tryNewlines2 (spacePairFree_scan_trySpaces2 _))))

end GrantMath
